import Mathlib

/-!
Verification of the imery module-resolution core.

Shallow embedding of the two resolvers of the repository:
* `Lang.load_main_module` (src/imery/lang.py) — the strict, breadth-first
  resolver with qualified widget namespacing, modeled as `langLoad`;
* `YAMLAggregator.process_module` / `aggregate`
  (scripts/aggregate_demo_yaml.py) — the permissive, depth-first resolver
  with flat namespacing, modeled as `processAgg` / `aggregateRun`.

The filesystem and the YAML parser are abstracted into an environment
`Env : List (String × ModFile)` mapping a module name to the outcome of
locating and parsing its file: absent from the list = not found,
`ModFile.malformed` = the parser raised, `ModFile.parsed c` = the parsed
top-level mapping (an empty or null document is the empty mapping, per the
Loader contract).  Top-level module content is modeled as a structured
record; the `import` key value is modeled as absent, a bare string, or a
list of strings, the shapes the code paths distinguish.
-/

namespace Imery

/-- A parsed YAML value: null, bool, int, string, sequence or mapping.
Mappings are association lists in insertion order, as Python dicts are. -/
inductive Y where
  | nullV : Y
  | b : Bool → Y
  | i : Int → Y
  | s : String → Y
  | seq : List Y → Y
  | map : List (String × Y) → Y

/-- Python truthiness of a YAML value (`if x:`): None, False, 0, "", [],
{} are falsy, everything else truthy. -/
def truthy : Y → Bool
  | Y.nullV => false
  | Y.b v => v
  | Y.i n => n != 0
  | Y.s v => v != ""
  | Y.seq xs => !xs.isEmpty
  | Y.map kvs => !kvs.isEmpty

/-- Truthiness of an optional value (`self.app_config` starts as None). -/
def truthyOpt : Option Y → Bool
  | none => false
  | some v => truthy v

/-- Whether a YAML value is null (`app is not None` test in lang.py). -/
def isNull : Y → Bool
  | Y.nullV => true
  | _ => false

/-- The value of a module's `import` key: absent, a bare string, or a
sequence of module-name strings. -/
inductive ImportVal where
  | absent : ImportVal
  | bare : String → ImportVal
  | list : List String → ImportVal

/-- The content of one parsed module file: raw `import` value, `widgets`
mapping, `data` mapping, and the `app` entry (`some v` iff the `app` key is
present, with `v = Y.nullV` for an explicit null). -/
structure ModuleContent where
  imp : ImportVal
  widgets : List (String × Y)
  data : List (String × Y)
  app : Option Y

/-- Outcome of locating and parsing one module file. -/
inductive ModFile where
  | malformed : ModFile
  | parsed : ModuleContent → ModFile

/-- The abstract filesystem: module name to file outcome; a name not in the
list is not found in any search path. -/
abbrev Env := List (String × ModFile)

/-- Dict key-membership test (`k in d` on a Python dict). -/
def keyMem (l : List (String × α)) (k : String) : Bool :=
  l.any (fun p => p.1 == k)

/-- Python dict assignment `d[k] = v`: replace in place if the key exists
(keeping its original position), else append. -/
def dictInsert : List (String × α) → String → α → List (String × α)
  | [], k, v => [(k, v)]
  | (k', v') :: rest, k, v =>
    if k' == k then (k', v) :: rest else (k', v') :: dictInsert rest k v

/-- The empty module content (an empty or null YAML document). -/
def emptyContent : ModuleContent := ⟨ImportVal.absent, [], [], none⟩

/-! ## Strict resolver: `Lang.load_main_module` (src/imery/lang.py) -/

/-- Accumulated state of a `Lang` instance: the three merged collections
(`self._widget_definitions`, `self._data_definitions`, `self._app_config`). -/
structure LangState where
  widget_definitions : List (String × Y)
  data_definitions : List (String × Y)
  app_config : Option Y

/-- A fresh `Lang` instance's state (empty collections, no app). -/
def initLang : LangState := ⟨[], [], none⟩

/-- The error branches of `Lang.load_main_module`, one per
`Result.error(...)` return site. -/
inductive LangErr where
  | notFound : String → LangErr
  | parseFail : String → LangErr
  | dupWidget : String → LangErr
  | dupData : String → LangErr
  | multiApp : String → LangErr
  | noWidgets : LangErr
  | noApp : LangErr

/-- Outcome of the strict resolver's loop, carrying the (mutated) state
and visited set in every case; `out` marks fuel exhaustion and is proved
unreachable for the fuel `langLoad` supplies. -/
inductive LoopRes where
  | ok : LangState → List String → LoopRes
  | err : LangErr → LangState → List String → LoopRes
  | out : LangState → List String → LoopRes

/-- The state carried by a loop outcome. -/
def LoopRes.state : LoopRes → LangState
  | LoopRes.ok s _ => s
  | LoopRes.err _ s _ => s
  | LoopRes.out s _ => s

/-- The visited set carried by a loop outcome. -/
def LoopRes.visited : LoopRes → List String
  | LoopRes.ok _ v => v
  | LoopRes.err _ _ v => v
  | LoopRes.out _ v => v

/-- Whether the loop ran out of fuel (never happens for `langLoad`). -/
def LoopRes.isOut : LoopRes → Bool
  | LoopRes.out _ _ => true
  | _ => false

/-- Strict merge of one module's mapping into an accumulated mapping
(the `for ... in widgets.items()` / `data.items()` loops of lang.py):
keys are rewritten by `qual` (`f"{current_module}.{widget_name}"` for
widgets, identity for data); on a key already present the loop returns the
error immediately, keeping the entries inserted so far. -/
def mergeStrict (qual : String → String) :
    List (String × Y) → List (String × Y) → List (String × Y) × Option String
  | [], acc => (acc, none)
  | (n, d) :: rest, acc =>
    let full := qual n
    if keyMem acc full then (acc, some full)
    else mergeStrict qual rest (acc ++ [(full, d)])

/-- The module names `queue.extend(imports)` enqueues in lang.py, where
`imports = module_content.get("import", [])` and `if imports:` guards the
extend.  A bare string is ITERATED BY PYTHON, so its characters are
enqueued as one-character module names; a sequence contributes its
elements; an empty string or list is falsy and contributes nothing. -/
def langImports : ImportVal → List String
  | ImportVal.absent => []
  | ImportVal.bare s => s.data.map (fun c => String.mk [c])
  | ImportVal.list l => l

/-- The non-null `app` entry of a module (`app = module_content.get("app");
if app is not None:` — an absent key and an explicit null look alike). -/
def appOf (mc : ModuleContent) : Option Y :=
  match mc.app with
  | some v => if isNull v then none else some v
  | none => none

/-- The post-traversal validation of `Lang.load_main_module`: at least one
widget definition and an `app` section must have been collected. -/
def langFinalize (s : LangState) (vis : List String) : LoopRes :=
  if s.widget_definitions.isEmpty then LoopRes.err LangErr.noWidgets s vis
  else if s.app_config.isNone then LoopRes.err LangErr.noApp s vis
  else LoopRes.ok s vis

/-- The `while queue:` loop of `Lang.load_main_module`, with explicit fuel
(one unit per iteration).  Pops the front name; skips it when visited;
otherwise marks visited, looks the file up (error when not found or
malformed), merges widgets (qualified), data, and the app block in source
order, and appends the module's imports to the queue. -/
def langLoop (env : Env) : Nat → List String → List String → LangState → LoopRes
  | _, [], vis, s => langFinalize s vis
  | 0, _ :: _, vis, s => LoopRes.out s vis
  | fuel + 1, cur :: rest, vis, s =>
    if cur ∈ vis then langLoop env fuel rest vis s
    else
      let vis' := cur :: vis
      match List.lookup cur env with
      | none => LoopRes.err (LangErr.notFound cur) s vis'
      | some ModFile.malformed => LoopRes.err (LangErr.parseFail cur) s vis'
      | some (ModFile.parsed mc) =>
        match mergeStrict (fun n => cur ++ "." ++ n) mc.widgets s.widget_definitions with
        | (ws, some full) =>
          LoopRes.err (LangErr.dupWidget full) { s with widget_definitions := ws } vis'
        | (ws, none) =>
          let s1 := { s with widget_definitions := ws }
          match mergeStrict (fun n => n) mc.data s1.data_definitions with
          | (ds, some k) =>
            LoopRes.err (LangErr.dupData k) { s1 with data_definitions := ds } vis'
          | (ds, none) =>
            let s2 := { s1 with data_definitions := ds }
            let q' := rest ++ langImports mc.imp
            match appOf mc with
            | some a =>
              if s2.app_config.isSome then LoopRes.err (LangErr.multiApp cur) s2 vis'
              else langLoop env fuel q' vis' { s2 with app_config := some a }
            | none => langLoop env fuel q' vis' s2

/-- The import names one file contributes to the strict resolver's queue. -/
def langFileImports : ModFile → List String
  | ModFile.parsed mc => langImports mc.imp
  | ModFile.malformed => []

/-- The import names the strict resolver would enqueue for a module,
read off the environment (empty for a missing or malformed file). -/
def langImpsOf (env : Env) (m : String) : List String :=
  match List.lookup m env with
  | some f => langFileImports f
  | none => []

/-- Import-list lengths summed over environment entries whose module name
is not yet visited; an upper bound on the queue growth still possible. -/
def sumUnvisited : Env → List String → Nat
  | [], _ => 0
  | (k, f) :: rest, vis =>
    (if k ∈ vis then 0 else (langFileImports f).length) + sumUnvisited rest vis

/-- Fuel that always suffices for `langLoop`: the two seed names plus the
total number of import references in the environment. -/
def langFuel (env : Env) : Nat := 2 + sumUnvisited env []

/-- `Lang.load_main_module(module_name)`: seed the queue with the main
module and `"builtin"`, then run the traversal loop from the given state. -/
def langLoad (env : Env) (module_name : String) (s : LangState) : LoopRes :=
  langLoop env (langFuel env) [module_name, "builtin"] [] s

/-! ## Permissive resolver: `YAMLAggregator` (scripts/aggregate_demo_yaml.py) -/

/-- State of a `YAMLAggregator`: merged widgets (name to owning module and
definition), merged data, the captured app config, and the visited set. -/
structure AggState where
  widgets : List (String × (String × Y))
  dataDefs : List (String × Y)
  app_config : Option Y
  visited : List String

/-- A fresh aggregator's state. -/
def initAgg : AggState := ⟨[], [], none, []⟩

/-- `load_yaml`'s view of a file: a malformed file is logged and treated as
an empty document, a parsed file yields its content. -/
def aggContentOf : ModFile → ModuleContent
  | ModFile.malformed => emptyContent
  | ModFile.parsed mc => mc

/-- The import names the aggregator recurses into: the source reads the
`import` key with default `[]` and wraps an `isinstance(..., str)` bare
string into a one-element list before iterating. -/
def aggImports : ImportVal → List String
  | ImportVal.absent => []
  | ImportVal.bare s => [s]
  | ImportVal.list l => l

/-- Merge one module's contributions into the aggregator state, flat keys,
overwrite on duplicates (`self.widgets[widget_name] = (module_name,
widget_def)`), and `app` captured whenever the key is present (last one
wins, per the comment in the source). -/
def mergeAgg (m : String) (mc : ModuleContent) (s : AggState) : AggState :=
  let ws := mc.widgets.foldl (fun acc p => dictInsert acc p.1 (m, p.2)) s.widgets
  let ds := mc.data.foldl (fun acc p => dictInsert acc p.1 p.2) s.dataDefs
  let ap := match mc.app with
    | some v => some v
    | none => s.app_config
  { s with widgets := ws, dataDefs := ds, app_config := ap }

mutual

/-- `YAMLAggregator.process_module`, with explicit fuel bounding the
recursion depth: skip if visited, else mark visited; a missing file is a
logged warning and a return; otherwise load (malformed becomes empty),
recurse into all imports first (depth-first), then merge own
widgets/data/app. -/
def processAgg (env : Env) : Nat → String → AggState → Option AggState
  | 0, _, _ => none
  | fuel + 1, m, s =>
    if m ∈ s.visited then some s
    else
      let s1 := { s with visited := m :: s.visited }
      match List.lookup m env with
      | none => some s1
      | some f =>
        let mc := aggContentOf f
        match processList env fuel (aggImports mc.imp) s1 with
        | none => none
        | some s2 => some (mergeAgg m mc s2)
termination_by fuel _ _ => (fuel, 0)

/-- The `for imported_module in imports:` loop of `process_module`. -/
def processList (env : Env) : Nat → List String → AggState → Option AggState
  | _, [], s => some s
  | fuel, n :: rest, s =>
    match processAgg env fuel n s with
    | none => none
    | some s' => processList env fuel rest s'
termination_by fuel ns _ => (fuel, ns.length + 1)

end

/-- The import names the aggregator would recurse into for a module, read
off the environment (empty for a missing or malformed file). -/
def aggImpsOf (env : Env) (m : String) : List String :=
  match List.lookup m env with
  | some f => aggImports (aggContentOf f).imp
  | none => []

/-- The import names one file contributes to the aggregator's recursion. -/
def aggFileImports (f : ModFile) : List String :=
  aggImports (aggContentOf f).imp

/-- Every module name mentioned by the environment: all keys plus every
imported name.  Recursion depth of `processAgg` is bounded by the
number of these names not yet visited. -/
def aggAllNames (env : Env) : List String :=
  env.map Prod.fst ++ env.foldr (fun p acc => aggFileImports p.2 ++ acc) []

/-- Names of `aggAllNames` not yet visited. -/
def remainingAgg (env : Env) (vis : List String) : Nat :=
  ((aggAllNames env).filter (fun n => decide (n ∉ vis))).length

/-- Fuel that always suffices for `processAgg`. -/
def aggFuel (env : Env) : Nat := (aggAllNames env).length + 2

mutual

/-- `process_widget_references`: rebuild dicts key by key and lists element
by element, recursing into values; anything else is returned unchanged. -/
def pwr : Y → Y
  | Y.map kvs => Y.map (pwrMap kvs)
  | Y.seq xs => Y.seq (pwrList xs)
  | y => y

/-- `pwr` over the elements of a sequence. -/
def pwrList : List Y → List Y
  | [] => []
  | y :: ys => pwr y :: pwrList ys

/-- `pwr` over the entries of a mapping. -/
def pwrMap : List (String × Y) → List (String × Y)
  | [] => []
  | (k, v) :: rest => (k, pwr v) :: pwrMap rest

end

/-- The final document built by `aggregate`: `app` when the captured app
config is truthy, then `widgets` when nonempty (dropping the owning-module
tags), then `data` when nonempty, all run through `pwr`. -/
def buildFinal (s : AggState) : List (String × Y) :=
  (if truthyOpt s.app_config then
     [("app", pwr (match s.app_config with | some v => v | none => Y.nullV))]
   else [])
  ++ (if s.widgets.isEmpty then [] else
       [("widgets", Y.map (s.widgets.map (fun p => (p.1, pwr p.2.2))))])
  ++ (if s.dataDefs.isEmpty then [] else
       [("data", Y.map (s.dataDefs.map (fun p => (p.1, pwr p.2))))])

/-- `YAMLAggregator.aggregate(main_module)`: run the depth-first traversal
from the main module on a fresh aggregator, then build the output mapping.
Returns the final state and the output document. -/
def aggregateRun (env : Env) (main : String) :
    Option (AggState × List (String × Y)) :=
  match processAgg env (aggFuel env) main initAgg with
  | none => none
  | some st => some (st, buildFinal st)

/-- The content the aggregator effectively loads for a module name: the
parsed content, empty for a malformed file, empty for a missing file. -/
def aggContentAt (env : Env) (m : String) : ModuleContent :=
  match List.lookup m env with
  | some f => aggContentOf f
  | none => emptyContent

/-- Outcome test: did the strict loop fail with a duplicate-widget error
(the `return Result.error(f"Duplicate widget definition: ...")` branch)? -/
def LoopRes.isDupWidget : LoopRes → Bool
  | LoopRes.err (LangErr.dupWidget _) _ _ => true
  | _ => false

/-- The qualified name `f"{module}.{widget}"` used by the strict resolver. -/
def qualName (m w : String) : String := m ++ "." ++ w

/-- The widget keys a file contributes. -/
def widgetKeysOf : ModFile → List String
  | ModFile.parsed mc => mc.widgets.map Prod.fst
  | ModFile.malformed => []

/-- All (module, widget-key) pairs of an environment. -/
def wpairs (env : Env) : List (String × String) :=
  env.foldr (fun p acc => ((widgetKeysOf p.2).map (fun w => (p.1, w))) ++ acc) []

/-! ## Concrete fixture environments -/

/-- C1 witness fixture, strict side: `root` imports `leaf`; all files parse. -/
def envC1L : Env :=
  [("root", ModFile.parsed ⟨ImportVal.list ["leaf"], [("btn", Y.s "b")], [],
      some (Y.s "a")⟩),
   ("builtin", ModFile.parsed emptyContent),
   ("leaf", ModFile.parsed ⟨ImportVal.absent, [("label", Y.s "l")],
      [("greeting", Y.s "hi")], none⟩)]

/-- C1 witness fixture, permissive side: `top` imports `leaf1`. -/
def envC1A : Env :=
  [("top", ModFile.parsed ⟨ImportVal.list ["leaf1"], [], [], none⟩),
   ("leaf1", ModFile.parsed emptyContent)]

/-- C2 fixture: module `m` declares the bare-string import `"ab"`, and a
module named `ab` exists on disk. -/
def envC2 : Env :=
  [("m", ModFile.parsed ⟨ImportVal.bare "ab", [("w", Y.s "1")], [],
      some (Y.s "z")⟩),
   ("builtin", ModFile.parsed emptyContent),
   ("ab", ModFile.parsed ⟨ImportVal.absent, [("v", Y.s "2")], [], none⟩)]

/-- C3 fixture: `m` imports the malformed module `bad`. -/
def envC3 : Env :=
  [("m", ModFile.parsed ⟨ImportVal.list ["bad"], [("w", Y.s "1")], [],
      some (Y.s "z")⟩),
   ("bad", ModFile.malformed),
   ("builtin", ModFile.parsed emptyContent)]

/-- C4 fixture, permissive side: `m` imports `p`; both contribute an app
block, `p` is merged first (depth-first), `m` last. -/
def envC4A : Env :=
  [("m", ModFile.parsed ⟨ImportVal.list ["p"], [], [], some (Y.s "appM")⟩),
   ("p", ModFile.parsed ⟨ImportVal.absent, [], [], some (Y.s "appP")⟩)]

/-- C4 fixture, strict side: `m` and `p` both contribute an app block. -/
def envC4L : Env :=
  [("m", ModFile.parsed ⟨ImportVal.list ["p"], [("w", Y.s "1")], [],
      some (Y.s "A1")⟩),
   ("builtin", ModFile.parsed emptyContent),
   ("p", ModFile.parsed ⟨ImportVal.absent, [], [], some (Y.s "A2")⟩)]

/-- C5 witness fixture: a closure that satisfies both post-conditions. -/
def envC5W : Env :=
  [("home", ModFile.parsed ⟨ImportVal.absent, [("w", Y.s "1")], [],
      some (Y.s "ap")⟩),
   ("builtin", ModFile.parsed emptyContent)]

/-- C6 fixture: `main` imports `a` and `b`; `a` imports `c`; `b` and `c`
both define widget key `x`. -/
def envC6 : Env :=
  [("main", ModFile.parsed ⟨ImportVal.list ["a", "b"], [], [], none⟩),
   ("a", ModFile.parsed ⟨ImportVal.list ["c"], [], [], none⟩),
   ("b", ModFile.parsed ⟨ImportVal.absent, [("x", Y.s "from-b")], [], none⟩),
   ("c", ModFile.parsed ⟨ImportVal.absent, [("x", Y.s "from-c")], [], none⟩)]

/-- C7 counterexample fixture: module `a` has widget `b.c` and module `a.b`
has widget `c`; both qualify to `a.b.c`. -/
def envC7 : Env :=
  [("m", ModFile.parsed ⟨ImportVal.list ["a", "a.b"], [], [], some (Y.s "z")⟩),
   ("builtin", ModFile.parsed emptyContent),
   ("a", ModFile.parsed ⟨ImportVal.absent, [("b.c", Y.s "1")], [], none⟩),
   ("a.b", ModFile.parsed ⟨ImportVal.absent, [("c", Y.s "2")], [], none⟩)]

/-- C7 witness fixture: distinct dot-free widget keys in distinct modules. -/
def envC7W : Env :=
  [("m", ModFile.parsed ⟨ImportVal.list ["u"], [("w1", Y.s "1")], [],
      some (Y.s "z")⟩),
   ("builtin", ModFile.parsed emptyContent),
   ("u", ModFile.parsed ⟨ImportVal.absent, [("w1", Y.s "2"), ("w2", Y.s "3")],
      [], none⟩)]

/-- C9 counterexample fixture: `m` contributes `app: {}` — an app key whose
value is falsy — plus one widget. -/
def envC9 : Env :=
  [("m", ModFile.parsed ⟨ImportVal.absent, [("w", Y.s "1")], [],
      some (Y.map [])⟩)]

/-- C10 fixture: `m` contributes a widget, a data entry and an app block,
then imports the missing module `bad`, so the strict load fails after the
merges. -/
def envC10 : Env :=
  [("m", ModFile.parsed ⟨ImportVal.list ["bad"], [("w", Y.s "1")],
      [("d", Y.s "2")], some (Y.s "ap")⟩),
   ("builtin", ModFile.parsed emptyContent)]

/-! ## Reachability over an import graph -/

/-- The module names reachable from the seeds through the import successor
function `f` (one of `langImpsOf env` or `aggImpsOf env`): the least set
containing the seeds and closed under imports. -/
inductive Reach (f : String → List String) (seeds : List String) : String → Prop
  | seed : ∀ {m}, m ∈ seeds → Reach f seeds m
  | step : ∀ {m n}, Reach f seeds m → n ∈ f m → Reach f seeds n

/-! ## Lemmas on the strict resolver -/


theorem sumUnvisited_mono (env : Env) (cur : String) :
    ∀ vis, sumUnvisited env (cur :: vis) ≤ sumUnvisited env vis := by
  induction env with
  | nil => intro vis; simp [sumUnvisited]
  | cons p rest ih =>
    intro vis
    obtain ⟨k, f⟩ := p
    simp only [sumUnvisited]
    have h1 : (if k ∈ cur :: vis then 0 else (langFileImports f).length)
        ≤ (if k ∈ vis then 0 else (langFileImports f).length) := by
      by_cases h : k ∈ vis
      · simp [h, List.mem_cons]
      · simp only [h, if_false]
        split <;> omega
    exact Nat.add_le_add h1 (ih vis)

theorem sumUnvisited_drop (env : Env) (cur : String) (f : ModFile) :
    ∀ vis, cur ∉ vis → List.lookup cur env = some f →
      sumUnvisited env (cur :: vis) + (langFileImports f).length ≤ sumUnvisited env vis := by
  induction env with
  | nil => intro vis _ hlk; simp [List.lookup] at hlk
  | cons p rest ih =>
    intro vis hvis hlk
    obtain ⟨k, g⟩ := p
    simp only [List.lookup] at hlk
    by_cases hk : cur = k
    · subst hk
      simp only [beq_self_eq_true] at hlk
      have hgf : g = f := by injection hlk
      subst hgf
      have hc : cur ∈ cur :: vis := List.mem_cons_self cur vis
      simp only [sumUnvisited]
      rw [if_pos hc, if_neg hvis]
      have := sumUnvisited_mono rest cur vis
      omega
    · have hne : (cur == k) = false := by
        simp [hk]
      rw [hne] at hlk
      simp only at hlk
      have hmem : (k ∈ cur :: vis) ↔ (k ∈ vis) := by
        constructor
        · intro h
          rcases List.mem_cons.mp h with h1 | h1
          · exact absurd h1.symm hk
          · exact h1
        · intro h
          exact List.mem_cons_of_mem _ h
      simp only [sumUnvisited]
      have := ih vis hvis hlk
      by_cases hkv : k ∈ vis
      · simp only [if_pos hkv, if_pos (hmem.mpr hkv)]
        omega
      · simp only [if_neg hkv, if_neg (fun h => hkv (hmem.mp h))]
        omega

theorem langFinalize_not_out (s : LangState) (vis : List String) :
    (langFinalize s vis).isOut = false := by
  unfold langFinalize
  split <;> [rfl; skip]
  split <;> rfl

/-- With fuel at least the queue length plus the unvisited import total,
the strict loop never runs out of fuel. -/
theorem langLoop_not_out (env : Env) :
    ∀ fuel q vis s, q.length + sumUnvisited env vis ≤ fuel →
      (langLoop env fuel q vis s).isOut = false := by
  intro fuel
  induction fuel with
  | zero =>
    intro q vis s h
    have hq : q = [] := by
      cases q with
      | nil => rfl
      | cons a as => simp at h
    subst hq
    simpa [langLoop] using langFinalize_not_out s vis
  | succ fuel ih =>
    intro q vis s h
    cases q with
    | nil => simpa [langLoop] using langFinalize_not_out s vis
    | cons cur rest =>
      by_cases hv : cur ∈ vis
      · simp only [langLoop, if_pos hv]
        apply ih
        simp only [List.length_cons] at h
        have := sumUnvisited_mono env cur vis
        omega
      · cases hlk : List.lookup cur env with
        | none => simp [langLoop, if_neg hv, hlk, LoopRes.isOut]
        | some file =>
          cases file with
          | malformed => simp [langLoop, if_neg hv, hlk, LoopRes.isOut]
          | parsed mc =>
            have hbound : (rest ++ langImports mc.imp).length +
                sumUnvisited env (cur :: vis) ≤ fuel := by
              have hdrop := sumUnvisited_drop env cur (ModFile.parsed mc) vis hv hlk
              simp only [langFileImports] at hdrop
              simp only [List.length_append, List.length_cons] at h ⊢
              omega
            rcases hmw : mergeStrict (fun n => cur ++ "." ++ n) mc.widgets
                s.widget_definitions with ⟨ws, werr⟩
            cases werr with
            | some full => simp [langLoop, if_neg hv, hlk, hmw, LoopRes.isOut]
            | none =>
              rcases hmd : mergeStrict (fun n => n) mc.data s.data_definitions
                  with ⟨ds, derr⟩
              cases derr with
              | some k => simp [langLoop, if_neg hv, hlk, hmw, hmd, LoopRes.isOut]
              | none =>
                cases happ : appOf mc with
                | some a =>
                  by_cases hs : s.app_config.isSome = true
                  · simp [langLoop, if_neg hv, hlk, hmw, hmd, happ, hs, LoopRes.isOut]
                  · simp only [langLoop, if_neg hv, hlk, hmw, hmd, happ,
                      Bool.not_eq_true] at *
                    simp only [hs, if_false, Bool.false_eq_true]
                    exact ih _ _ _ hbound
                | none =>
                  simp only [langLoop, if_neg hv, hlk, hmw, hmd, happ]
                  exact ih _ _ _ hbound

/-- `langLoad` always terminates without exhausting its fuel, on every
environment, cyclic import graphs included. -/
theorem langLoad_not_out (env : Env) (n : String) (s : LangState) :
    (langLoad env n s).isOut = false := by
  apply langLoop_not_out
  simp [langFuel]

theorem langFinalize_ok_inv (s : LangState) (vis : List String) (s' : LangState)
    (vis' : List String) :
    langFinalize s vis = LoopRes.ok s' vis' →
      s' = s ∧ vis' = vis ∧ s.widget_definitions ≠ [] ∧ s.app_config ≠ none := by
  unfold langFinalize
  split
  · intro h; cases h
  · split
    · intro h; cases h
    · intro h
      rename_i h1 h2
      injection h with hs hv
      refine ⟨hs.symm, hv.symm, ?_, ?_⟩
      · intro hnil
        exact h1 (by simp [hnil])
      · intro hnone
        exact h2 (by simp [hnone])

theorem langFinalize_visited (s : LangState) (vis : List String) :
    (langFinalize s vis).visited = vis := by
  unfold langFinalize
  split <;> [rfl; skip]
  split <;> rfl

/-- Each module name is recorded in the visited set at most once: the
strict loop preserves distinctness of the visited list. -/
theorem langLoop_visited_nodup (env : Env) :
    ∀ fuel q vis s, vis.Nodup → (langLoop env fuel q vis s).visited.Nodup := by
  intro fuel
  induction fuel with
  | zero =>
    intro q vis s hnd
    cases q with
    | nil => simpa [langLoop, langFinalize_visited] using hnd
    | cons a as => simpa [langLoop, LoopRes.visited] using hnd
  | succ fuel ih =>
    intro q vis s hnd
    cases q with
    | nil => simpa [langLoop, langFinalize_visited] using hnd
    | cons cur rest =>
      by_cases hv : cur ∈ vis
      · simp only [langLoop, if_pos hv]
        exact ih rest vis s hnd
      · have hnd' : (cur :: vis).Nodup := List.nodup_cons.mpr ⟨hv, hnd⟩
        cases hlk : List.lookup cur env with
        | none => simpa [langLoop, if_neg hv, hlk, LoopRes.visited] using hnd'
        | some file =>
          cases file with
          | malformed => simpa [langLoop, if_neg hv, hlk, LoopRes.visited] using hnd'
          | parsed mc =>
            rcases hmw : mergeStrict (fun n => cur ++ "." ++ n) mc.widgets
                s.widget_definitions with ⟨ws, werr⟩
            cases werr with
            | some full =>
              simpa [langLoop, if_neg hv, hlk, hmw, LoopRes.visited] using hnd'
            | none =>
              rcases hmd : mergeStrict (fun n => n) mc.data s.data_definitions
                  with ⟨ds, derr⟩
              cases derr with
              | some k =>
                simpa [langLoop, if_neg hv, hlk, hmw, hmd, LoopRes.visited] using hnd'
              | none =>
                cases happ : appOf mc with
                | some a =>
                  by_cases hs : s.app_config.isSome = true
                  · simpa [langLoop, if_neg hv, hlk, hmw, hmd, happ, hs,
                      LoopRes.visited] using hnd'
                  · simp only [langLoop, if_neg hv, hlk, hmw, hmd, happ,
                      Bool.not_eq_true] at *
                    simp only [hs, if_false, Bool.false_eq_true]
                    exact ih _ _ _ hnd'
                | none =>
                  simp only [langLoop, if_neg hv, hlk, hmw, hmd, happ]
                  exact ih _ _ _ hnd'

/-- Everything the strict loop visits is reachable: the visited set stays
inside any set `R` that contains the queue and current visited set and is
closed under the environment's import successors. -/
theorem langLoop_visited_sound (env : Env) (R : String → Prop)
    (hR : ∀ m n, R m → n ∈ langImpsOf env m → R n) :
    ∀ fuel q vis s, (∀ x ∈ q, R x) → (∀ x ∈ vis, R x) →
      ∀ x ∈ (langLoop env fuel q vis s).visited, R x := by
  intro fuel
  induction fuel with
  | zero =>
    intro q vis s _ hvis
    cases q with
    | nil => simpa [langLoop, langFinalize_visited] using hvis
    | cons a as => simpa [langLoop, LoopRes.visited] using hvis
  | succ fuel ih =>
    intro q vis s hq hvis
    cases q with
    | nil => simpa [langLoop, langFinalize_visited] using hvis
    | cons cur rest =>
      have hqrest : ∀ x ∈ rest, R x := fun x hx => hq x (List.mem_cons_of_mem _ hx)
      have hcur : R cur := hq cur (List.mem_cons_self _ _)
      have hvis' : ∀ x ∈ cur :: vis, R x := by
        intro x hx
        rcases List.mem_cons.mp hx with h | h
        · exact h ▸ hcur
        · exact hvis x h
      by_cases hv : cur ∈ vis
      · simp only [langLoop, if_pos hv]
        exact ih rest vis s hqrest hvis
      · cases hlk : List.lookup cur env with
        | none => simpa [langLoop, if_neg hv, hlk, LoopRes.visited] using hvis'
        | some file =>
          cases file with
          | malformed => simpa [langLoop, if_neg hv, hlk, LoopRes.visited] using hvis'
          | parsed mc =>
            have hq' : ∀ x ∈ rest ++ langImports mc.imp, R x := by
              intro x hx
              rcases List.mem_append.mp hx with h | h
              · exact hqrest x h
              · apply hR cur x hcur
                simp [langImpsOf, hlk, langFileImports, h]
            rcases hmw : mergeStrict (fun n => cur ++ "." ++ n) mc.widgets
                s.widget_definitions with ⟨ws, werr⟩
            cases werr with
            | some full =>
              simpa [langLoop, if_neg hv, hlk, hmw, LoopRes.visited] using hvis'
            | none =>
              rcases hmd : mergeStrict (fun n => n) mc.data s.data_definitions
                  with ⟨ds, derr⟩
              cases derr with
              | some k =>
                simpa [langLoop, if_neg hv, hlk, hmw, hmd, LoopRes.visited] using hvis'
              | none =>
                cases happ : appOf mc with
                | some a =>
                  by_cases hs : s.app_config.isSome = true
                  · simpa [langLoop, if_neg hv, hlk, hmw, hmd, happ, hs,
                      LoopRes.visited] using hvis'
                  · simp only [langLoop, if_neg hv, hlk, hmw, hmd, happ,
                      Bool.not_eq_true] at *
                    simp only [hs, if_false, Bool.false_eq_true]
                    exact ih _ _ _ hq' hvis'
                | none =>
                  simp only [langLoop, if_neg hv, hlk, hmw, hmd, happ]
                  exact ih _ _ _ hq' hvis'

/-- When the strict loop completes successfully, the final visited set
absorbs the queue and the prior visited set and is closed under imports of
the modules visited during this run. -/
theorem langLoop_ok_closed (env : Env) :
    ∀ fuel q vis s s' vis', langLoop env fuel q vis s = LoopRes.ok s' vis' →
      (∀ x ∈ q, x ∈ vis') ∧ (∀ x ∈ vis, x ∈ vis') ∧
      (∀ m, m ∈ vis' → m ∉ vis → ∀ n ∈ langImpsOf env m, n ∈ vis') := by
  intro fuel
  induction fuel with
  | zero =>
    intro q vis s s' vis' h
    cases q with
    | nil =>
      simp only [langLoop] at h
      obtain ⟨_, hv, _, _⟩ := langFinalize_ok_inv s vis s' vis' h
      subst hv
      exact ⟨by simp, fun x hx => hx, fun m hm hnm => absurd hm hnm⟩
    | cons a as => simp [langLoop] at h
  | succ fuel ih =>
    intro q vis s s' vis' h
    cases q with
    | nil =>
      simp only [langLoop] at h
      obtain ⟨_, hv, _, _⟩ := langFinalize_ok_inv s vis s' vis' h
      subst hv
      exact ⟨by simp, fun x hx => hx, fun m hm hnm => absurd hm hnm⟩
    | cons cur rest =>
      by_cases hv : cur ∈ vis
      · simp only [langLoop, if_pos hv] at h
        obtain ⟨h1, h2, h3⟩ := ih _ _ _ _ _ h
        refine ⟨?_, h2, h3⟩
        intro x hx
        rcases List.mem_cons.mp hx with rfl | hx
        · exact h2 _ hv
        · exact h1 _ hx
      · cases hlk : List.lookup cur env with
        | none => simp [langLoop, if_neg hv, hlk] at h
        | some file =>
          cases file with
          | malformed => simp [langLoop, if_neg hv, hlk] at h
          | parsed mc =>
            rcases hmw : mergeStrict (fun n => cur ++ "." ++ n) mc.widgets
                s.widget_definitions with ⟨ws, werr⟩
            cases werr with
            | some full => simp [langLoop, if_neg hv, hlk, hmw] at h
            | none =>
              rcases hmd : mergeStrict (fun n => n) mc.data s.data_definitions
                  with ⟨ds, derr⟩
              cases derr with
              | some k => simp [langLoop, if_neg hv, hlk, hmw, hmd] at h
              | none =>
                have hfin : ∃ s2, langLoop env fuel (rest ++ langImports mc.imp)
                    (cur :: vis) s2 = LoopRes.ok s' vis' := by
                  cases happ : appOf mc with
                  | some a =>
                    by_cases hs : s.app_config.isSome = true
                    · simp [langLoop, if_neg hv, hlk, hmw, hmd, happ, hs] at h
                    · simp only [Bool.not_eq_true] at hs
                      simp only [langLoop, if_neg hv, hlk, hmw, hmd, happ, hs,
                        Bool.false_eq_true, if_false] at h
                      exact ⟨_, h⟩
                  | none =>
                    simp only [langLoop, if_neg hv, hlk, hmw, hmd, happ] at h
                    exact ⟨_, h⟩
                obtain ⟨s2, h2⟩ := hfin
                obtain ⟨h1, hsub, hcl⟩ := ih _ _ _ _ _ h2
                have hcurv : cur ∈ vis' := hsub cur (List.mem_cons_self _ _)
                refine ⟨?_, ?_, ?_⟩
                · intro x hx
                  rcases List.mem_cons.mp hx with rfl | hx
                  · exact hcurv
                  · exact h1 x (List.mem_append_left _ hx)
                · intro x hx
                  exact hsub x (List.mem_cons_of_mem _ hx)
                · intro m hm hnm
                  by_cases hmc : m = cur
                  · subst hmc
                    intro n hn
                    apply h1
                    apply List.mem_append_right
                    simpa [langImpsOf, hlk, langFileImports] using hn
                  · intro n hn
                    apply hcl m hm _ n hn
                    intro hmem
                    rcases List.mem_cons.mp hmem with rfl | hx
                    · exact hmc rfl
                    · exact hnm hx

/-- A successful strict load has collected at least one widget definition
and exactly one app configuration (the post-traversal validation). -/
theorem langLoop_ok_postcond (env : Env) :
    ∀ fuel q vis s s' vis', langLoop env fuel q vis s = LoopRes.ok s' vis' →
      s'.widget_definitions ≠ [] ∧ s'.app_config ≠ none := by
  intro fuel
  induction fuel with
  | zero =>
    intro q vis s s' vis' h
    cases q with
    | nil =>
      simp only [langLoop] at h
      obtain ⟨hs, _, hw, ha⟩ := langFinalize_ok_inv s vis s' vis' h
      subst hs
      exact ⟨hw, ha⟩
    | cons a as => simp [langLoop] at h
  | succ fuel ih =>
    intro q vis s s' vis' h
    cases q with
    | nil =>
      simp only [langLoop] at h
      obtain ⟨hs, _, hw, ha⟩ := langFinalize_ok_inv s vis s' vis' h
      subst hs
      exact ⟨hw, ha⟩
    | cons cur rest =>
      by_cases hv : cur ∈ vis
      · simp only [langLoop, if_pos hv] at h
        exact ih _ _ _ _ _ h
      · cases hlk : List.lookup cur env with
        | none => simp [langLoop, if_neg hv, hlk] at h
        | some file =>
          cases file with
          | malformed => simp [langLoop, if_neg hv, hlk] at h
          | parsed mc =>
            rcases hmw : mergeStrict (fun n => cur ++ "." ++ n) mc.widgets
                s.widget_definitions with ⟨ws, werr⟩
            cases werr with
            | some full => simp [langLoop, if_neg hv, hlk, hmw] at h
            | none =>
              rcases hmd : mergeStrict (fun n => n) mc.data s.data_definitions
                  with ⟨ds, derr⟩
              cases derr with
              | some k => simp [langLoop, if_neg hv, hlk, hmw, hmd] at h
              | none =>
                cases happ : appOf mc with
                | some a =>
                  by_cases hs : s.app_config.isSome = true
                  · simp [langLoop, if_neg hv, hlk, hmw, hmd, happ, hs] at h
                  · simp only [Bool.not_eq_true] at hs
                    simp only [langLoop, if_neg hv, hlk, hmw, hmd, happ, hs,
                      Bool.false_eq_true, if_false] at h
                    exact ih _ _ _ _ _ h
                | none =>
                  simp only [langLoop, if_neg hv, hlk, hmw, hmd, happ] at h
                  exact ih _ _ _ _ _ h

theorem mergeStrict_mono (qual : String → String) :
    ∀ l acc (p : String × Y), p ∈ acc → p ∈ (mergeStrict qual l acc).1 := by
  intro l
  induction l with
  | nil => intro acc p hp; simpa [mergeStrict] using hp
  | cons nd rest ih =>
    intro acc p hp
    obtain ⟨n, d⟩ := nd
    simp only [mergeStrict]
    split
    · simpa using hp
    · exact ih _ p (List.mem_append_left _ hp)

theorem langFinalize_state (s : LangState) (vis : List String) :
    (langFinalize s vis).state = s := by
  unfold langFinalize
  split <;> [rfl; skip]
  split <;> rfl

/-- The strict loop only ever adds to the accumulated collections: every
widget and data entry present when an iteration starts is present in the
state the loop finally returns, successful or not, and a set app config is
never overwritten. -/
theorem langLoop_state_mono (env : Env) :
    ∀ fuel q vis s,
      (∀ p ∈ s.widget_definitions,
        p ∈ (langLoop env fuel q vis s).state.widget_definitions) ∧
      (∀ p ∈ s.data_definitions,
        p ∈ (langLoop env fuel q vis s).state.data_definitions) ∧
      (∀ a, s.app_config = some a →
        (langLoop env fuel q vis s).state.app_config = some a) := by
  intro fuel
  induction fuel with
  | zero =>
    intro q vis s
    cases q with
    | nil =>
      simp only [langLoop, langFinalize_state]
      exact ⟨fun p hp => hp, fun p hp => hp, fun a ha => ha⟩
    | cons a as =>
      simp only [langLoop, LoopRes.state]
      exact ⟨fun p hp => hp, fun p hp => hp, fun a ha => ha⟩
  | succ fuel ih =>
    intro q vis s
    cases q with
    | nil =>
      simp only [langLoop, langFinalize_state]
      exact ⟨fun p hp => hp, fun p hp => hp, fun a ha => ha⟩
    | cons cur rest =>
      by_cases hv : cur ∈ vis
      · simp only [langLoop, if_pos hv]
        exact ih _ _ _
      · cases hlk : List.lookup cur env with
        | none =>
          simp only [langLoop, if_neg hv, hlk, LoopRes.state]
          exact ⟨fun p hp => hp, fun p hp => hp, fun a ha => ha⟩
        | some file =>
          cases file with
          | malformed =>
            simp only [langLoop, if_neg hv, hlk, LoopRes.state]
            exact ⟨fun p hp => hp, fun p hp => hp, fun a ha => ha⟩
          | parsed mc =>
            have hwmono : ∀ p ∈ s.widget_definitions,
                p ∈ (mergeStrict (fun n => cur ++ "." ++ n) mc.widgets
                  s.widget_definitions).1 :=
              fun p hp => mergeStrict_mono _ _ _ p hp
            have hdmono : ∀ p ∈ s.data_definitions,
                p ∈ (mergeStrict (fun n => n) mc.data s.data_definitions).1 :=
              fun p hp => mergeStrict_mono _ _ _ p hp
            rcases hmw : mergeStrict (fun n => cur ++ "." ++ n) mc.widgets
                s.widget_definitions with ⟨ws, werr⟩
            rw [hmw] at hwmono
            cases werr with
            | some full =>
              simp only [langLoop, if_neg hv, hlk, hmw, LoopRes.state]
              exact ⟨hwmono, fun p hp => hp, fun a ha => ha⟩
            | none =>
              rcases hmd : mergeStrict (fun n => n) mc.data s.data_definitions
                  with ⟨ds, derr⟩
              rw [hmd] at hdmono
              cases derr with
              | some k =>
                simp only [langLoop, if_neg hv, hlk, hmw, hmd, LoopRes.state]
                exact ⟨hwmono, hdmono, fun a ha => ha⟩
              | none =>
                cases happ : appOf mc with
                | some a2 =>
                  by_cases hs : s.app_config.isSome = true
                  · simp only [langLoop, if_neg hv, hlk, hmw, hmd, happ, hs,
                      if_true, LoopRes.state]
                    exact ⟨hwmono, hdmono, fun a ha => ha⟩
                  · simp only [Bool.not_eq_true] at hs
                    simp only [langLoop, if_neg hv, hlk, hmw, hmd, happ, hs,
                      Bool.false_eq_true, if_false]
                    obtain ⟨ihw, ihd, iha⟩ :=
                      ih (rest ++ langImports mc.imp) (cur :: vis)
                        ⟨ws, ds, some a2⟩
                    refine ⟨fun p hp => ihw p (hwmono p hp),
                            fun p hp => ihd p (hdmono p hp), ?_⟩
                    intro a ha
                    rw [ha] at hs
                    cases hs
                | none =>
                  simp only [langLoop, if_neg hv, hlk, hmw, hmd, happ]
                  obtain ⟨ihw, ihd, iha⟩ :=
                    ih (rest ++ langImports mc.imp) (cur :: vis)
                      ⟨ws, ds, s.app_config⟩
                  exact ⟨fun p hp => ihw p (hwmono p hp),
                         fun p hp => ihd p (hdmono p hp),
                         fun a ha => iha a ha⟩

/-! ## Lemmas on the permissive aggregator -/

@[simp] theorem mergeAgg_visited (m : String) (mc : ModuleContent) (s : AggState) :
    (mergeAgg m mc s).visited = s.visited := rfl

theorem dictInsert_ne_nil {β : Type} (l : List (String × β)) (k : String) (v : β) :
    dictInsert l k v ≠ [] := by
  cases l with
  | nil => simp [dictInsert]
  | cons p rest =>
    obtain ⟨k', v'⟩ := p
    simp only [dictInsert]
    split <;> simp

theorem foldl_dictInsert_ne_nil {β γ : Type} (key : γ → String) (val : γ → β) :
    ∀ (l : List γ) (acc : List (String × β)), acc ≠ [] →
      l.foldl (fun a p => dictInsert a (key p) (val p)) acc ≠ [] := by
  intro l
  induction l with
  | nil => intro acc h; simpa using h
  | cons p rest ih =>
    intro acc _
    simp only [List.foldl_cons]
    exact ih _ (dictInsert_ne_nil _ _ _)

theorem foldl_dictInsert_ne_nil_of_arg {β γ : Type} (key : γ → String) (val : γ → β) :
    ∀ (l : List γ) (acc : List (String × β)), l ≠ [] →
      l.foldl (fun a p => dictInsert a (key p) (val p)) acc ≠ [] := by
  intro l acc h
  cases l with
  | nil => exact absurd rfl h
  | cons p rest =>
    simp only [List.foldl_cons]
    exact foldl_dictInsert_ne_nil key val rest _ (dictInsert_ne_nil _ _ _)

/-- Visited-set facts for one `process_module` call: the visited set only
grows, the processed module ends up in it, and distinctness is kept (a
module is marked at most once). -/
theorem aggVisitedFacts (env : Env) : ∀ fuel,
    (∀ m s s', processAgg env fuel m s = some s' →
      (∀ x ∈ s.visited, x ∈ s'.visited) ∧ m ∈ s'.visited ∧
      (s.visited.Nodup → s'.visited.Nodup)) ∧
    (∀ ns s s', processList env fuel ns s = some s' →
      (∀ x ∈ s.visited, x ∈ s'.visited) ∧ (∀ n ∈ ns, n ∈ s'.visited) ∧
      (s.visited.Nodup → s'.visited.Nodup)) := by
  intro fuel
  induction fuel with
  | zero =>
    constructor
    · intro m s s' h
      simp [processAgg] at h
    · intro ns s s' h
      cases ns with
      | nil =>
        simp only [processList, Option.some.injEq] at h
        subst h
        exact ⟨fun x hx => hx, by simp, id⟩
      | cons n rest =>
        simp [processList, processAgg] at h
  | succ fuel ih =>
    obtain ⟨_, ihL⟩ := ih
    have hP : ∀ m s s', processAgg env (fuel + 1) m s = some s' →
        (∀ x ∈ s.visited, x ∈ s'.visited) ∧ m ∈ s'.visited ∧
        (s.visited.Nodup → s'.visited.Nodup) := by
      intro m s s' h
      by_cases hv : m ∈ s.visited
      · simp only [processAgg, if_pos hv, Option.some.injEq] at h
        subst h
        exact ⟨fun x hx => hx, hv, id⟩
      · simp only [processAgg, if_neg hv] at h
        cases hlk : List.lookup m env with
        | none =>
          rw [hlk] at h
          simp only [Option.some.injEq] at h
          subst h
          exact ⟨fun x hx => List.mem_cons_of_mem _ hx,
                 List.mem_cons_self _ _,
                 fun nd => List.nodup_cons.mpr ⟨hv, nd⟩⟩
        | some f =>
          rw [hlk] at h
          simp only at h
          cases hpl : processList env fuel
              (aggImports (aggContentOf f).imp)
              { s with visited := m :: s.visited } with
          | none => rw [hpl] at h; cases h
          | some s2 =>
            rw [hpl] at h
            simp only [Option.some.injEq] at h
            obtain ⟨l1, _, l3⟩ := ihL _ _ _ hpl
            have hvis2 : s'.visited = s2.visited := by
              rw [← h]; rfl
            refine ⟨?_, ?_, ?_⟩
            · intro x hx
              rw [hvis2]
              exact l1 x (List.mem_cons_of_mem _ hx)
            · rw [hvis2]
              exact l1 m (List.mem_cons_self _ _)
            · intro nd
              rw [hvis2]
              exact l3 (List.nodup_cons.mpr ⟨hv, nd⟩)
    have hL : ∀ ns s s', processList env (fuel + 1) ns s = some s' →
        (∀ x ∈ s.visited, x ∈ s'.visited) ∧ (∀ n ∈ ns, n ∈ s'.visited) ∧
        (s.visited.Nodup → s'.visited.Nodup) := by
      intro ns
      induction ns with
      | nil =>
        intro s s' h
        simp only [processList, Option.some.injEq] at h
        subst h
        exact ⟨fun x hx => hx, by simp, id⟩
      | cons n rest ihns =>
        intro s s' h
        simp only [processList] at h
        cases hpa : processAgg env (fuel + 1) n s with
        | none => rw [hpa] at h; cases h
        | some s1 =>
          rw [hpa] at h
          simp only at h
          obtain ⟨m1, m2, m3⟩ := hP n s s1 hpa
          obtain ⟨l1, l2, l3⟩ := ihns s1 s' h
          refine ⟨fun x hx => l1 x (m1 x hx), ?_, fun nd => l3 (m3 nd)⟩
          intro x hx
          rcases List.mem_cons.mp hx with rfl | hx
          · exact l1 x m2
          · exact l2 x hx
    exact ⟨hP, hL⟩

/-- Import-closedness of the aggregator's visited set: every module marked
during a successful call has all its imports marked as well by the end. -/
theorem aggClosedFacts (env : Env) : ∀ fuel,
    (∀ m s s', processAgg env fuel m s = some s' →
      ∀ v ∈ s'.visited, v ∉ s.visited → ∀ n ∈ aggImpsOf env v, n ∈ s'.visited) ∧
    (∀ ns s s', processList env fuel ns s = some s' →
      ∀ v ∈ s'.visited, v ∉ s.visited → ∀ n ∈ aggImpsOf env v, n ∈ s'.visited) := by
  intro fuel
  induction fuel with
  | zero =>
    constructor
    · intro m s s' h
      simp [processAgg] at h
    · intro ns s s' h
      cases ns with
      | nil =>
        simp only [processList, Option.some.injEq] at h
        subst h
        intro v _ hnv
        intro n hn
        exact absurd hnv (by simp_all)
      | cons n rest => simp [processList, processAgg] at h
  | succ fuel ih =>
    obtain ⟨_, ihL⟩ := ih
    have hP : ∀ m s s', processAgg env (fuel + 1) m s = some s' →
        ∀ v ∈ s'.visited, v ∉ s.visited → ∀ n ∈ aggImpsOf env v, n ∈ s'.visited := by
      intro m s s' h
      by_cases hv : m ∈ s.visited
      · simp only [processAgg, if_pos hv, Option.some.injEq] at h
        subst h
        intro v hvv hnv
        exact absurd hvv hnv
      · simp only [processAgg, if_neg hv] at h
        cases hlk : List.lookup m env with
        | none =>
          rw [hlk] at h
          simp only [Option.some.injEq] at h
          subst h
          intro v hvv hnv n hn
          have hvm : v = m := by
            rcases List.mem_cons.mp hvv with rfl | hx
            · rfl
            · exact absurd hx hnv
          subst hvm
          simp [aggImpsOf, hlk] at hn
        | some f =>
          rw [hlk] at h
          simp only at h
          cases hpl : processList env fuel
              (aggImports (aggContentOf f).imp)
              { s with visited := m :: s.visited } with
          | none => rw [hpl] at h; cases h
          | some s2 =>
            rw [hpl] at h
            simp only [Option.some.injEq] at h
            have hvis2 : s'.visited = s2.visited := by
              rw [← h]; rfl
            obtain ⟨lmono, lmarks, _⟩ := (aggVisitedFacts env fuel).2 _ _ _ hpl
            intro v hvv hnv n hn
            rw [hvis2] at hvv ⊢
            by_cases hvm : v = m
            · subst hvm
              apply lmarks
              simpa [aggImpsOf, hlk] using hn
            · apply ihL _ _ _ hpl v hvv _ n hn
              intro hmem
              rcases List.mem_cons.mp hmem with rfl | hx
              · exact hvm rfl
              · exact hnv hx
    have hL : ∀ ns s s', processList env (fuel + 1) ns s = some s' →
        ∀ v ∈ s'.visited, v ∉ s.visited → ∀ n ∈ aggImpsOf env v, n ∈ s'.visited := by
      intro ns
      induction ns with
      | nil =>
        intro s s' h
        simp only [processList, Option.some.injEq] at h
        subst h
        intro v hvv hnv
        exact absurd hvv hnv
      | cons n rest ihns =>
        intro s s' h
        simp only [processList] at h
        cases hpa : processAgg env (fuel + 1) n s with
        | none => rw [hpa] at h; cases h
        | some s1 =>
          rw [hpa] at h
          simp only at h
          obtain ⟨m1, _, _⟩ := (aggVisitedFacts env (fuel + 1)).1 _ _ _ hpa
          obtain ⟨l1, _, _⟩ := (aggVisitedFacts env (fuel + 1)).2 _ _ _ h
          intro v hvv hnv nn hn
          by_cases hv1 : v ∈ s1.visited
          · exact l1 _ (hP n s s1 hpa v hv1 hnv nn hn)
          · exact ihns s1 s' h v hvv hv1 nn hn
    exact ⟨hP, hL⟩

/-- Soundness of the aggregator's visited set: it stays inside any set `R`
containing the seed and closed under the environment's import successors. -/
theorem aggSoundFacts (env : Env) (R : String → Prop)
    (hR : ∀ m n, R m → n ∈ aggImpsOf env m → R n) : ∀ fuel,
    (∀ m s s', processAgg env fuel m s = some s' → R m →
      (∀ x ∈ s.visited, R x) → ∀ x ∈ s'.visited, R x) ∧
    (∀ ns s s', processList env fuel ns s = some s' → (∀ n ∈ ns, R n) →
      (∀ x ∈ s.visited, R x) → ∀ x ∈ s'.visited, R x) := by
  intro fuel
  induction fuel with
  | zero =>
    constructor
    · intro m s s' h
      simp [processAgg] at h
    · intro ns s s' h
      cases ns with
      | nil =>
        simp only [processList, Option.some.injEq] at h
        subst h
        exact fun _ hvis x hx => hvis x hx
      | cons n rest => simp [processList, processAgg] at h
  | succ fuel ih =>
    obtain ⟨_, ihL⟩ := ih
    have hP : ∀ m s s', processAgg env (fuel + 1) m s = some s' → R m →
        (∀ x ∈ s.visited, R x) → ∀ x ∈ s'.visited, R x := by
      intro m s s' h hm hvis
      by_cases hv : m ∈ s.visited
      · simp only [processAgg, if_pos hv, Option.some.injEq] at h
        subst h
        exact hvis
      · simp only [processAgg, if_neg hv] at h
        have hvis1 : ∀ x ∈ m :: s.visited, R x := by
          intro x hx
          rcases List.mem_cons.mp hx with rfl | hx
          · exact hm
          · exact hvis x hx
        cases hlk : List.lookup m env with
        | none =>
          rw [hlk] at h
          simp only [Option.some.injEq] at h
          subst h
          exact hvis1
        | some f =>
          rw [hlk] at h
          simp only at h
          cases hpl : processList env fuel
              (aggImports (aggContentOf f).imp)
              { s with visited := m :: s.visited } with
          | none => rw [hpl] at h; cases h
          | some s2 =>
            rw [hpl] at h
            simp only [Option.some.injEq] at h
            have hvis2 : s'.visited = s2.visited := by
              rw [← h]; rfl
            have himps : ∀ n ∈ aggImports (aggContentOf f).imp, R n := by
              intro n hn
              apply hR m n hm
              simpa [aggImpsOf, hlk] using hn
            intro x hx
            rw [hvis2] at hx
            exact ihL _ _ _ hpl himps hvis1 x hx
    have hL : ∀ ns s s', processList env (fuel + 1) ns s = some s' →
        (∀ n ∈ ns, R n) → (∀ x ∈ s.visited, R x) → ∀ x ∈ s'.visited, R x := by
      intro ns
      induction ns with
      | nil =>
        intro s s' h
        simp only [processList, Option.some.injEq] at h
        subst h
        exact fun _ hvis x hx => hvis x hx
      | cons n rest ihns =>
        intro s s' h hns hvis
        simp only [processList] at h
        cases hpa : processAgg env (fuel + 1) n s with
        | none => rw [hpa] at h; cases h
        | some s1 =>
          rw [hpa] at h
          simp only at h
          have hvis1 : ∀ x ∈ s1.visited, R x :=
            hP n s s1 hpa (hns n (List.mem_cons_self _ _)) hvis
          exact ihns s1 s' h (fun x hx => hns x (List.mem_cons_of_mem _ hx)) hvis1
    exact ⟨hP, hL⟩

theorem filter_length_mono {α : Type} (p q : α → Bool)
    (h : ∀ a, p a = true → q a = true) :
    ∀ l : List α, (l.filter p).length ≤ (l.filter q).length := by
  intro l
  induction l with
  | nil => simp
  | cons a rest ih =>
    cases hp : p a with
    | true =>
      rw [List.filter_cons_of_pos hp, List.filter_cons_of_pos (h a hp)]
      simpa using ih
    | false =>
      rw [List.filter_cons_of_neg (by simp [hp])]
      cases hq : q a with
      | true =>
        rw [List.filter_cons_of_pos hq]
        simp only [List.length_cons]
        omega
      | false =>
        rw [List.filter_cons_of_neg (by simp [hq])]
        exact ih

theorem filter_length_lt {α : Type} (p q : α → Bool)
    (h : ∀ a, p a = true → q a = true) :
    ∀ (l : List α) (a : α), a ∈ l → p a = false → q a = true →
      (l.filter p).length < (l.filter q).length := by
  intro l
  induction l with
  | nil => intro a ha; exact absurd ha (by simp)
  | cons b rest ih =>
    intro a ha hpa hqa
    rcases List.mem_cons.mp ha with rfl | hmem
    · rw [List.filter_cons_of_neg (by simp [hpa]), List.filter_cons_of_pos hqa]
      simp only [List.length_cons]
      have := filter_length_mono p q h rest
      omega
    · cases hp : p b with
      | true =>
        rw [List.filter_cons_of_pos hp, List.filter_cons_of_pos (h b hp)]
        simp only [List.length_cons]
        exact Nat.succ_lt_succ (ih a hmem hpa hqa)
      | false =>
        rw [List.filter_cons_of_neg (by simp [hp])]
        cases hq : q b with
        | true =>
          rw [List.filter_cons_of_pos hq]
          simp only [List.length_cons]
          have := ih a hmem hpa hqa
          omega
        | false =>
          rw [List.filter_cons_of_neg (by simp [hq])]
          exact ih a hmem hpa hqa

theorem remainingAgg_mono_subset (env : Env) (vis vis' : List String)
    (h : ∀ x ∈ vis, x ∈ vis') : remainingAgg env vis' ≤ remainingAgg env vis := by
  apply filter_length_mono
  intro a ha
  simp only [decide_eq_true_eq] at ha ⊢
  intro hmem
  exact ha (h a hmem)

theorem lookup_pair_mem {β : Type} :
    ∀ (l : List (String × β)) (m : String) (f : β),
      List.lookup m l = some f → (m, f) ∈ l := by
  intro l
  induction l with
  | nil => intro m f h; simp [List.lookup] at h
  | cons p rest ih =>
    intro m f h
    obtain ⟨k, g⟩ := p
    simp only [List.lookup] at h
    by_cases hk : (m == k) = true
    · rw [hk] at h
      simp only [Option.some.injEq] at h
      have hm : m = k := by simpa using hk
      subst hm
      subst h
      exact List.mem_cons_self _ _
    · have hk' : (m == k) = false := by
        simpa using hk
      rw [hk'] at h
      simp only at h
      exact List.mem_cons_of_mem _ (ih m f h)

theorem lookup_mem_keys (env : Env) (m : String) (f : ModFile)
    (h : List.lookup m env = some f) : m ∈ aggAllNames env := by
  apply List.mem_append_left
  have := lookup_pair_mem env m f h
  exact List.mem_map.mpr ⟨(m, f), this, rfl⟩

theorem pairMem_imports_sub (env : Env) (m : String) (f : ModFile)
    (hmem : (m, f) ∈ env) :
    ∀ n ∈ aggFileImports f, n ∈ aggAllNames env := by
  intro n hn
  apply List.mem_append_right
  induction env with
  | nil => exact absurd hmem (by simp)
  | cons q rest ih =>
    simp only [List.foldr_cons]
    rcases List.mem_cons.mp hmem with rfl | hq
    · exact List.mem_append_left _ hn
    · exact List.mem_append_right _ (ih hq)

theorem lookup_imports_sub (env : Env) (m : String) (f : ModFile)
    (h : List.lookup m env = some f) :
    ∀ n ∈ aggImports (aggContentOf f).imp, n ∈ aggAllNames env :=
  pairMem_imports_sub env m f (lookup_pair_mem env m f h)

/-- Fuel sufficiency for the aggregator: with fuel exceeding the number of
unvisited mentioned names, neither `processAgg` nor `processList` runs out. -/
theorem aggFuelFacts (env : Env) : ∀ fuel,
    (∀ m s, remainingAgg env s.visited + 1 ≤ fuel → processAgg env fuel m s ≠ none) ∧
    (∀ ns s, remainingAgg env s.visited + 1 ≤ fuel →
      processList env fuel ns s ≠ none) := by
  intro fuel
  induction fuel with
  | zero =>
    constructor
    · intro m s hb; omega
    · intro ns s hb; omega
  | succ fuel ih =>
    obtain ⟨_, ihL⟩ := ih
    have hP : ∀ m s, remainingAgg env s.visited + 1 ≤ fuel + 1 →
        processAgg env (fuel + 1) m s ≠ none := by
      intro m s hb
      by_cases hv : m ∈ s.visited
      · simp [processAgg, if_pos hv]
      · simp only [processAgg, if_neg hv]
        cases hlk : List.lookup m env with
        | none => simp
        | some f =>
          simp only
          have hmall : m ∈ aggAllNames env := lookup_mem_keys env m f hlk
          have hdrop : remainingAgg env (m :: s.visited) < remainingAgg env s.visited := by
            apply filter_length_lt
            · intro a ha
              simp only [decide_eq_true_eq] at ha ⊢
              intro hmem
              exact ha (List.mem_cons_of_mem _ hmem)
            · exact hmall
            · simp
            · simpa using hv
          have hb1 : remainingAgg env (m :: s.visited) + 1 ≤ fuel := by omega
          cases hpl : processList env fuel (aggImports (aggContentOf f).imp)
              { s with visited := m :: s.visited } with
          | none =>
            exact absurd hpl (ihL _ _ hb1)
          | some s2 => simp
    have hL : ∀ ns s, remainingAgg env s.visited + 1 ≤ fuel + 1 →
        processList env (fuel + 1) ns s ≠ none := by
      intro ns
      induction ns with
      | nil => intro s hb; simp [processList]
      | cons n rest ihns =>
        intro s hb
        simp only [processList]
        cases hpa : processAgg env (fuel + 1) n s with
        | none => exact absurd hpa (hP n s hb)
        | some s1 =>
          simp only
          have hmono := ((aggVisitedFacts env (fuel + 1)).1 _ _ _ hpa).1
          have : remainingAgg env s1.visited ≤ remainingAgg env s.visited :=
            remainingAgg_mono_subset env _ _ hmono
          exact ihns s1 (by omega)
    exact ⟨hP, hL⟩

/-- `aggregate` always returns a document: the permissive traversal cannot
fail, on any environment, cyclic import graphs included. -/
theorem aggregateRun_ne_none (env : Env) (main : String) :
    aggregateRun env main ≠ none := by
  unfold aggregateRun
  have hb : remainingAgg env (initAgg).visited + 1 ≤ aggFuel env := by
    have : remainingAgg env (initAgg).visited ≤ (aggAllNames env).length := by
      unfold remainingAgg
      exact List.length_filter_le _ _
    unfold aggFuel
    omega
  cases hpa : processAgg env (aggFuel env) main initAgg with
  | none => exact absurd hpa ((aggFuelFacts env (aggFuel env)).1 main initAgg hb)
  | some st => simp

/-! ## The reference rewriter is the identity -/

theorem pwrList_id_of (xs : List Y) (h : ∀ y ∈ xs, pwr y = y) :
    pwrList xs = xs := by
  induction xs with
  | nil => rfl
  | cons y ys ih =>
    simp only [pwrList]
    rw [h y (List.mem_cons_self _ _), ih (fun z hz => h z (List.mem_cons_of_mem _ hz))]

theorem pwrMap_id_of (kvs : List (String × Y)) (h : ∀ p ∈ kvs, pwr p.2 = p.2) :
    pwrMap kvs = kvs := by
  induction kvs with
  | nil => rfl
  | cons p rest ih =>
    obtain ⟨k, v⟩ := p
    simp only [pwrMap]
    rw [show pwr v = v from h (k, v) (List.mem_cons_self _ _),
        ih (fun z hz => h z (List.mem_cons_of_mem _ hz))]

theorem pwr_id_bounded : ∀ n (y : Y), sizeOf y ≤ n → pwr y = y := by
  intro n
  induction n with
  | zero =>
    intro y hy
    cases y <;> simp_all
  | succ n ih =>
    intro y hy
    cases y with
    | nullV => rfl
    | b v => rfl
    | i v => rfl
    | s v => rfl
    | seq xs =>
      simp only [pwr]
      rw [pwrList_id_of]
      intro z hz
      apply ih
      have h1 := List.sizeOf_lt_of_mem hz
      have h2 : sizeOf (Y.seq xs) = 1 + sizeOf xs := by simp
      omega
    | map kvs =>
      simp only [pwr]
      rw [pwrMap_id_of]
      intro p hp
      apply ih
      have h1 := List.sizeOf_lt_of_mem hp
      have h2 : sizeOf (Y.map kvs) = 1 + sizeOf kvs := by simp
      have h3 : sizeOf p = 1 + sizeOf p.1 + sizeOf p.2 := by
        obtain ⟨a, b2⟩ := p
        simp
      omega

theorem pwr_id (y : Y) : pwr y = y := pwr_id_bounded (sizeOf y) y (Nat.le_refl _)

/-! ## Claim theorems -/

/-- C1 (amended): on every import graph, acyclic or cyclic, both resolvers
terminate (`langLoad` never exhausts its fuel; `aggregate` always returns a
document) and record each module name in the visited set at most once.
The visited set ends equal to the set of reachable module names for the
permissive aggregator on every input, and for the strict resolver whenever
it returns `ok`; when the strict resolver returns an error it stops early,
and the visited set can then be a proper subset of the reachable names. -/
theorem c1_resolution_visits_each_reachable_once :
    (∀ (env : Env) (n : String) (s : LangState), (langLoad env n s).isOut = false) ∧
    (∀ (env : Env) (n : String) (s : LangState), (langLoad env n s).visited.Nodup) ∧
    (∀ (env : Env) (n : String) (s s' : LangState) (vis' : List String),
      langLoad env n s = LoopRes.ok s' vis' →
      ∀ m, m ∈ vis' ↔ Reach (langImpsOf env) [n, "builtin"] m) ∧
    (∀ (env : Env) (main : String), aggregateRun env main ≠ none) ∧
    (∀ (env : Env) (main : String) (st : AggState) (fin : List (String × Y)),
      aggregateRun env main = some (st, fin) →
      st.visited.Nodup ∧ ∀ m, m ∈ st.visited ↔ Reach (aggImpsOf env) [main] m) := by
  refine ⟨fun env n s => langLoad_not_out env n s,
          fun env n s => langLoop_visited_nodup env _ _ _ _ List.nodup_nil,
          ?_, fun env main => aggregateRun_ne_none env main, ?_⟩
  · intro env n s s' vis' h m
    unfold langLoad at h
    constructor
    · intro hm
      have hs := langLoop_visited_sound env
        (Reach (langImpsOf env) [n, "builtin"])
        (fun a b ha hb => Reach.step ha hb)
        (langFuel env) [n, "builtin"] [] s
        (fun x hx => Reach.seed hx) (by simp)
      have hv : (langLoop env (langFuel env) [n, "builtin"] [] s).visited = vis' :=
        congrArg LoopRes.visited h
      apply hs
      rw [hv]
      exact hm
    · intro hr
      obtain ⟨h1, _, h3⟩ := langLoop_ok_closed env (langFuel env)
        [n, "builtin"] [] s s' vis' h
      induction hr with
      | seed hx => exact h1 _ hx
      | step hprev himp ih => exact h3 _ ih (by simp) _ himp
  · intro env main st fin h
    unfold aggregateRun at h
    have hpa : processAgg env (aggFuel env) main initAgg = some st := by
      cases hpa : processAgg env (aggFuel env) main initAgg with
      | none => rw [hpa] at h; cases h
      | some st2 =>
        rw [hpa] at h
        simp only [Option.some.injEq, Prod.mk.injEq] at h
        rw [← h.1]
    obtain ⟨hmono, hmarks, hnd⟩ := (aggVisitedFacts env (aggFuel env)).1 _ _ _ hpa
    refine ⟨hnd List.nodup_nil, ?_⟩
    intro m
    constructor
    · intro hm
      exact (aggSoundFacts env (Reach (aggImpsOf env) [main])
        (fun a b ha hb => Reach.step ha hb) (aggFuel env)).1 _ _ _ hpa
        (Reach.seed (List.mem_singleton.mpr rfl)) (by simp [initAgg]) m hm
    · intro hr
      induction hr with
      | seed hx =>
        obtain rfl := List.mem_singleton.mp hx
        exact hmarks
      | step hprev himp ih =>
        exact (aggClosedFacts env (aggFuel env)).1 _ _ _ hpa _ ih
          (by simp [initAgg]) _ himp

/-- C1 counterexample to the claim as stated: on the empty environment the
strict resolver errors on the missing main module and stops; `"builtin"` is
a reachable seed yet is never visited, so the final visited set is a proper
subset of the reachable names. -/
theorem c1_counterexample :
    (langLoad [] "m" initLang).visited = ["m"] ∧
    Reach (langImpsOf ([] : Env)) ["m", "builtin"] "builtin" ∧
    ("builtin" : String) ∉ (["m"] : List String) := by
  refine ⟨rfl, Reach.seed (by simp), by decide⟩

/-- C1 witness: the visited-set/reachability equivalence applied to the
concrete two-module fixtures, with the `ok`/`some` hypotheses discharged
by evaluation. -/
theorem c1_witness :
    (("leaf" : String) ∈ (["leaf", "builtin", "root"] : List String) ↔
      Reach (langImpsOf envC1L) ["root", "builtin"] "leaf") ∧
    (("leaf1" : String) ∈ (["leaf1", "top"] : List String) ↔
      Reach (aggImpsOf envC1A) ["top"] "leaf1") := by
  constructor
  · exact (c1_resolution_visits_each_reachable_once).2.2.1 envC1L "root" initLang
      ⟨[("root.btn", Y.s "b"), ("leaf.label", Y.s "l")],
        [("greeting", Y.s "hi")], some (Y.s "a")⟩
      ["leaf", "builtin", "root"] rfl "leaf"
  · exact ((c1_resolution_visits_each_reachable_once).2.2.2.2 envC1A "top"
      ⟨[], [], none, ["leaf1", "top"]⟩ []
      (by simp [aggregateRun, aggFuel, aggAllNames, aggFileImports, envC1A,
        aggContentOf, emptyContent, aggImports, processAgg, processList, initAgg,
        mergeAgg, buildFinal, truthyOpt, List.lookup, dictInsert])).2 "leaf1"

theorem dictInsert_lookup {β : Type} :
    ∀ (acc : List (String × β)) (k : String) (v : β),
      List.lookup k (dictInsert acc k v) = some v := by
  intro acc
  induction acc with
  | nil => intro k v; simp [dictInsert, List.lookup]
  | cons p rest ih =>
    intro k v
    obtain ⟨k', v'⟩ := p
    simp only [dictInsert]
    by_cases h : (k' == k) = true
    · rw [if_pos h]
      have hk : (k == k') = true := by
        have := beq_iff_eq.mp h
        simp [this]
      simp [List.lookup, hk]
    · have h' : (k' == k) = false := by simpa using h
      rw [if_neg (by simp [h'])]
      have hk : (k == k') = false := by
        have : ¬ k' = k := by simpa using h
        simp
        intro hc
        exact this hc.symm
      simp [List.lookup, hk]
      exact ih k v

/-- C2: divergence between the two resolvers on a bare-string `import`.
The permissive aggregator wraps the string into a one-element list, but the
strict resolver's `queue.extend(imports)` iterates the string, enqueuing
its CHARACTERS as module names.  Evaluated at the failing input `envC2`
(module `m` declares `import: "ab"` and a module named `ab` exists): the
strict resolver visits `a` and fails with module-not-found, never visiting
`ab`; the aggregator visits `ab` and succeeds. -/
theorem c2_bare_string_import_divergence :
    langImports (ImportVal.bare "ab") = ["a", "b"] ∧
    aggImports (ImportVal.bare "ab") = ["ab"] ∧
    langLoad envC2 "m" initLang = LoopRes.err (LangErr.notFound "a")
      ⟨[("m.w", Y.s "1")], [], some (Y.s "z")⟩ ["a", "builtin", "m"] ∧
    ("ab" : String) ∉ (["a", "builtin", "m"] : List String) ∧
    aggregateRun envC2 "m" = some
      (⟨[("v", ("ab", Y.s "2")), ("w", ("m", Y.s "1"))], [], some (Y.s "z"),
        ["ab", "m"]⟩,
       [("app", Y.s "z"), ("widgets", Y.map [("v", Y.s "2"), ("w", Y.s "1")])]) := by
  refine ⟨rfl, rfl, rfl, by decide, ?_⟩
  simp [aggregateRun, aggFuel, aggAllNames, aggFileImports, aggContentOf,
    emptyContent, aggImports, processAgg, processList, initAgg, mergeAgg,
    buildFinal, truthyOpt, truthy, List.lookup, dictInsert, envC2, pwr]

/-- C3 counterexample: a malformed module file is NOT fatal for the
permissive aggregator — on `envC3`, where module `bad` is malformed, the
aggregation still returns a document and has traversed past `bad`, merging
module `m`'s widget and app contributions afterwards. -/
theorem c3_counterexample :
    List.lookup "bad" envC3 = some ModFile.malformed ∧
    aggregateRun envC3 "m" = some
      (⟨[("w", ("m", Y.s "1"))], [], some (Y.s "z"), ["bad", "m"]⟩,
       [("app", Y.s "z"), ("widgets", Y.map [("w", Y.s "1")])]) := by
  refine ⟨rfl, ?_⟩
  simp [aggregateRun, aggFuel, aggAllNames, aggFileImports, aggContentOf,
    emptyContent, aggImports, processAgg, processList, initAgg, mergeAgg,
    buildFinal, truthyOpt, truthy, List.lookup, dictInsert, envC3, pwr]

/-- C3 (amended): a parse error is fatal only under the strict policy.
When the strict loop pops an unvisited module whose file is malformed it
returns the parse error immediately; the permissive aggregator logs, treats
the file as an empty module, and continues: processing a malformed module
just marks it visited and changes nothing else. -/
theorem c3_parse_error_policies :
    (∀ (env : Env) (fuel : Nat) (cur : String) (rest vis : List String)
        (s : LangState), cur ∉ vis →
      List.lookup cur env = some ModFile.malformed →
      langLoop env (fuel + 1) (cur :: rest) vis s =
        LoopRes.err (LangErr.parseFail cur) s (cur :: vis)) ∧
    (∀ (env : Env) (fuel : Nat) (m : String) (s : AggState), m ∉ s.visited →
      List.lookup m env = some ModFile.malformed →
      processAgg env (fuel + 1) m s = some { s with visited := m :: s.visited }) := by
  constructor
  · intro env fuel cur rest vis s hv hlk
    simp [langLoop, if_neg hv, hlk]
  · intro env fuel m s hv hlk
    simp only [processAgg, if_neg hv, hlk]
    simp [aggContentOf, emptyContent, aggImports, processList, mergeAgg]

/-- C3 witness: both policy behaviors at a concrete malformed module. -/
theorem c3_witness :
    langLoop [("x", ModFile.malformed)] 1 ["x"] [] initLang =
      LoopRes.err (LangErr.parseFail "x") initLang ["x"] ∧
    processAgg [("x", ModFile.malformed)] 1 "x" initAgg =
      some { initAgg with visited := ["x"] } :=
  ⟨c3_parse_error_policies.1 [("x", ModFile.malformed)] 0 "x" [] [] initLang
      (by decide) rfl,
   c3_parse_error_policies.2 [("x", ModFile.malformed)] 0 "x" initAgg
      (by simp [initAgg]) rfl⟩

/-- C4 counterexample: the permissive aggregator does not keep the
first-merged app block.  On `envC4A` module `p` is merged first (app
`appP`, depth-first), module `m` last (app `appM`); the final app config
is `appM`, the last-merged one, and nothing is logged or ignored. -/
theorem c4_counterexample :
    aggregateRun envC4A "m" = some
      (⟨[], [], some (Y.s "appM"), ["p", "m"]⟩, [("app", Y.s "appM")]) ∧
    Y.s "appM" ≠ Y.s "appP" := by
  constructor
  · simp [aggregateRun, aggFuel, aggAllNames, aggFileImports, aggContentOf,
      emptyContent, aggImports, processAgg, processList, initAgg, mergeAgg,
      buildFinal, truthyOpt, truthy, List.lookup, dictInsert, envC4A, pwr]
  · simp

/-- C4 (amended): at most one app block in strict mode — the strict
resolver fails with the multiple-app error on a second non-null `app`
contribution (state shows the first one kept).  In permissive mode every
module whose content has an `app` key overwrites the stored app config, so
the LAST-merged app block wins, silently. -/
theorem c4_app_policy :
    (∀ (m : String) (mc : ModuleContent) (s : AggState) (v : Y),
      mc.app = some v → (mergeAgg m mc s).app_config = some v) ∧
    langLoad envC4L "m" initLang = LoopRes.err (LangErr.multiApp "p")
      ⟨[("m.w", Y.s "1")], [], some (Y.s "A1")⟩ ["p", "builtin", "m"] := by
  constructor
  · intro m mc s v hv
    simp [mergeAgg, hv]
  · rfl

/-- C4 witness: the overwrite clause applied to a concrete merge. -/
theorem c4_witness :
    (mergeAgg "w1" ⟨ImportVal.absent, [], [], some (Y.s "second")⟩
      ⟨[], [], some (Y.s "first"), ["w1"]⟩).app_config = some (Y.s "second") :=
  c4_app_policy.1 "w1" ⟨ImportVal.absent, [], [], some (Y.s "second")⟩
    ⟨[], [], some (Y.s "first"), ["w1"]⟩ (Y.s "second") rfl

/-- C5 counterexample: the permissive aggregator enforces no post-traversal
invariant — on the empty environment (zero widgets, zero app contributions)
`aggregate` still returns a document, with no error. -/
theorem c5_counterexample :
    aggregateRun ([] : Env) "m" = some (⟨[], [], none, ["m"]⟩, []) := by
  simp [aggregateRun, aggFuel, aggAllNames, aggFileImports, aggContentOf,
    emptyContent, aggImports, processAgg, processList, initAgg, mergeAgg,
    buildFinal, truthyOpt, remainingAgg, List.lookup]

/-- C5 (amended): only the strict resolver enforces the two post-traversal
invariants: whenever `langLoad` returns `ok` the collected widget map is
nonempty and an app config is present (zero of either is an error branch);
a second app contribution already fails during traversal (see C4).  The
permissive aggregator never fails at all. -/
theorem c5_post_traversal_invariants :
    (∀ (env : Env) (n : String) (s s' : LangState) (vis' : List String),
      langLoad env n s = LoopRes.ok s' vis' →
      s'.widget_definitions ≠ [] ∧ s'.app_config ≠ none) ∧
    (∀ (env : Env) (main : String), aggregateRun env main ≠ none) := by
  constructor
  · intro env n s s' vis' h
    exact langLoop_ok_postcond env _ _ _ _ _ _ h
  · exact aggregateRun_ne_none

/-- C5 witness: the strict post-conditions read off a successful load. -/
theorem c5_witness :
    ([("home.w", Y.s "1")] : List (String × Y)) ≠ [] ∧
    (some (Y.s "ap") : Option Y) ≠ none :=
  c5_post_traversal_invariants.1 envC5W "home" initLang
    ⟨[("home.w", Y.s "1")], [], some (Y.s "ap")⟩ ["builtin", "home"] rfl

/-- C6: under the permissive depth-first policy the later-merged module
wins a widget-key conflict: a dict insert for an existing key overwrites
its value in place, and on the concrete fixture (`main` imports `a`, `b`;
`a` imports `c`; `b` and `c` both define widget `x`) the merge order is
`c` before `b` (visited list `["b", "c", "a", "main"]` is built in reverse)
and the final value of `x` is the one from `b`. -/
theorem c6_later_merged_widget_wins :
    (∀ (β : Type) (acc : List (String × β)) (k : String) (v : β),
      List.lookup k (dictInsert acc k v) = some v) ∧
    aggregateRun envC6 "main" = some
      (⟨[("x", ("b", Y.s "from-b"))], [], none, ["b", "c", "a", "main"]⟩,
       [("widgets", Y.map [("x", Y.s "from-b")])]) := by
  constructor
  · intro β acc k v
    exact dictInsert_lookup acc k v
  · simp [aggregateRun, aggFuel, aggAllNames, aggFileImports, aggContentOf,
      emptyContent, aggImports, processAgg, processList, initAgg, mergeAgg,
      buildFinal, truthyOpt, truthy, List.lookup, dictInsert, envC6, pwr]

/-- C10: `Lang.load_main_module` is not atomic on failure.  The loop only
ever appends to the widget and data collections and never clears a set app
config, whatever outcome it returns (first conjunct, applicable to any
intermediate state); and on the concrete input `envC10` the load fails with
module-not-found while the error-time state still exposes the widget, data
and app contributions merged before the failure. -/
theorem c10_no_rollback_on_error :
    (∀ (env : Env) (fuel : Nat) (q vis : List String) (s : LangState),
      (∀ p ∈ s.widget_definitions,
        p ∈ (langLoop env fuel q vis s).state.widget_definitions) ∧
      (∀ p ∈ s.data_definitions,
        p ∈ (langLoop env fuel q vis s).state.data_definitions) ∧
      (∀ a : Y, s.app_config = some a →
        (langLoop env fuel q vis s).state.app_config = some a)) ∧
    langLoad envC10 "m" initLang = LoopRes.err (LangErr.notFound "bad")
      ⟨[("m.w", Y.s "1")], [("d", Y.s "2")], some (Y.s "ap")⟩
      ["bad", "builtin", "m"] :=
  ⟨fun env fuel q vis s => langLoop_state_mono env fuel q vis s, rfl⟩

/-- C10 witness: monotonicity applied at the mid-run state of the `envC10`
failure (widget `m.w`, data `d` and the app already merged, module `bad`
still queued): the entries survive into the returned state. -/
theorem c10_witness :
    (("m.w", Y.s "1") ∈ (langLoop envC10 2 ["bad"] ["builtin", "m"]
      ⟨[("m.w", Y.s "1")], [("d", Y.s "2")],
        some (Y.s "ap")⟩).state.widget_definitions) ∧
    ((langLoop envC10 2 ["bad"] ["builtin", "m"]
      ⟨[("m.w", Y.s "1")], [("d", Y.s "2")],
        some (Y.s "ap")⟩).state.app_config = some (Y.s "ap")) := by
  constructor
  · exact (c10_no_rollback_on_error.1 envC10 2 ["bad"] ["builtin", "m"]
      ⟨[("m.w", Y.s "1")], [("d", Y.s "2")], some (Y.s "ap")⟩).1
      ("m.w", Y.s "1") (List.mem_cons_self _ _)
  · exact (c10_no_rollback_on_error.1 envC10 2 ["bad"] ["builtin", "m"]
      ⟨[("m.w", Y.s "1")], [("d", Y.s "2")], some (Y.s "ap")⟩).2.2
      (Y.s "ap") rfl

/-! ## Duplicate-widget reachability under qualified namespacing -/

theorem keyMem_eq_true_iff {β : Type} (l : List (String × β)) (k : String) :
    keyMem l k = true ↔ ∃ p ∈ l, p.1 = k := by
  simp [keyMem, List.any_eq_true, beq_iff_eq]

theorem keyMem_append {β : Type} (l1 l2 : List (String × β)) (k : String) :
    keyMem (l1 ++ l2) k = (keyMem l1 k || keyMem l2 k) := by
  simp [keyMem, List.any_append]

theorem qualName_inj_right (m w1 w2 : String)
    (h : qualName m w1 = qualName m w2) : w1 = w2 := by
  unfold qualName at h
  have hd : (m ++ "." ++ w1).data = (m ++ "." ++ w2).data := by rw [h]
  simp only [String.data_append] at hd
  have := List.append_cancel_left hd
  exact String.ext this

theorem pairMem_wpairs (env : Env) (m : String) (f : ModFile)
    (hmem : (m, f) ∈ env) :
    ∀ w ∈ widgetKeysOf f, (m, w) ∈ wpairs env := by
  intro w hw
  induction env with
  | nil => exact absurd hmem (by simp)
  | cons q rest ih =>
    simp only [wpairs, List.foldr_cons]
    rcases List.mem_cons.mp hmem with rfl | hq
    · exact List.mem_append_left _ (List.mem_map.mpr ⟨w, hw, rfl⟩)
    · exact List.mem_append_right _ (ih hq)

theorem lookup_wpairs (env : Env) (m : String) (f : ModFile)
    (h : List.lookup m env = some f) :
    ∀ w ∈ widgetKeysOf f, (m, w) ∈ wpairs env :=
  pairMem_wpairs env m f (lookup_pair_mem env m f h)

theorem mergeStrict_no_dup (qual : String → String) :
    ∀ (ws acc : List (String × Y)),
      (∀ w ∈ ws.map Prod.fst, keyMem acc (qual w) = false) →
      (∀ w1 ∈ ws.map Prod.fst, ∀ w2 ∈ ws.map Prod.fst, qual w1 = qual w2 → w1 = w2) →
      (ws.map Prod.fst).Nodup →
      mergeStrict qual ws acc =
        (acc ++ ws.map (fun p => (qual p.1, p.2)), none) := by
  intro ws
  induction ws with
  | nil => intro acc _ _ _; simp [mergeStrict]
  | cons nd rest ih =>
    intro acc hfresh hinj hnd
    obtain ⟨n, d⟩ := nd
    have hn : keyMem acc (qual n) = false :=
      hfresh n (by simp)
    simp only [mergeStrict, hn, Bool.false_eq_true, if_false]
    rw [List.map_cons] at hnd
    have hnd' : (rest.map Prod.fst).Nodup := (List.nodup_cons.mp hnd).2
    have hnotin : n ∉ rest.map Prod.fst := (List.nodup_cons.mp hnd).1
    have hfresh' : ∀ w ∈ rest.map Prod.fst,
        keyMem (acc ++ [(qual n, d)]) (qual w) = false := by
      intro w hw
      rw [keyMem_append]
      have h1 : keyMem acc (qual w) = false :=
        hfresh w (by simp [hw])
      have h2 : keyMem [(qual n, d)] (qual w) = false := by
        simp only [keyMem, List.any_cons, List.any_nil, Bool.or_false]
        by_contra hc
        simp only [Bool.not_eq_false, beq_iff_eq] at hc
        have : n = w := hinj n (by simp) w (by simp [hw]) hc
        exact hnotin (this ▸ hw)
      rw [h1, h2]
      rfl
    have hinj' : ∀ w1 ∈ rest.map Prod.fst, ∀ w2 ∈ rest.map Prod.fst,
        qual w1 = qual w2 → w1 = w2 := by
      intro w1 h1 w2 h2 he
      exact hinj w1 (by simp [h1]) w2 (by simp [h2]) he
    rw [ih (acc ++ [(qual n, d)]) hfresh' hinj' hnd']
    simp

theorem langFinalize_not_dup (s : LangState) (vis : List String) :
    (langFinalize s vis).isDupWidget = false := by
  unfold langFinalize
  split <;> [rfl; skip]
  split <;> rfl

/-- Under qualified-name injectivity across the environment's widget pairs
and per-module key distinctness, the strict loop can never take the
duplicate-widget error branch, from any state whose widget keys are
qualified names of already-visited modules. -/
theorem langLoop_no_dupwidget (env : Env)
    (Hq : ∀ a ∈ wpairs env, ∀ b ∈ wpairs env,
      qualName a.1 a.2 = qualName b.1 b.2 → a = b)
    (Hw : ∀ p ∈ env, (widgetKeysOf p.2).Nodup) :
    ∀ fuel q vis s,
      (∀ k, keyMem s.widget_definitions k = true →
        ∃ mw ∈ wpairs env, mw.1 ∈ vis ∧ k = qualName mw.1 mw.2) →
      (langLoop env fuel q vis s).isDupWidget = false := by
  intro fuel
  induction fuel with
  | zero =>
    intro q vis s _
    cases q with
    | nil => simpa [langLoop] using langFinalize_not_dup s vis
    | cons a as => simp [langLoop, LoopRes.isDupWidget]
  | succ fuel ih =>
    intro q vis s hInv
    cases q with
    | nil => simpa [langLoop] using langFinalize_not_dup s vis
    | cons cur rest =>
      by_cases hv : cur ∈ vis
      · simp only [langLoop, if_pos hv]
        exact ih rest vis s hInv
      · cases hlk : List.lookup cur env with
        | none => simp [langLoop, if_neg hv, hlk, LoopRes.isDupWidget]
        | some file =>
          cases file with
          | malformed => simp [langLoop, if_neg hv, hlk, LoopRes.isDupWidget]
          | parsed mc =>
            have hpairs : ∀ w ∈ mc.widgets.map Prod.fst, (cur, w) ∈ wpairs env :=
              fun w hw => lookup_wpairs env cur (ModFile.parsed mc) hlk w
                (by simpa [widgetKeysOf] using hw)
            have hfresh : ∀ w ∈ mc.widgets.map Prod.fst,
                keyMem s.widget_definitions (qualName cur w) = false := by
              intro w hw
              by_contra hc
              simp only [Bool.not_eq_false] at hc
              obtain ⟨mw, hmw, hmvis, hk⟩ := hInv _ hc
              have : (cur, w) = mw :=
                Hq (cur, w) (hpairs w hw) mw hmw hk
              rw [← this] at hmvis
              exact hv hmvis
            have hinj : ∀ w1 ∈ mc.widgets.map Prod.fst,
                ∀ w2 ∈ mc.widgets.map Prod.fst,
                qualName cur w1 = qualName cur w2 → w1 = w2 :=
              fun w1 _ w2 _ he => qualName_inj_right cur w1 w2 he
            have hndk : (mc.widgets.map Prod.fst).Nodup := by
              have := Hw (cur, ModFile.parsed mc) (lookup_pair_mem env cur _ hlk)
              simpa [widgetKeysOf] using this
            have hmw := mergeStrict_no_dup (fun n => qualName cur n)
              mc.widgets s.widget_definitions hfresh hinj hndk
            have hmw' : mergeStrict (fun n => cur ++ "." ++ n) mc.widgets
                s.widget_definitions =
                (s.widget_definitions ++
                  mc.widgets.map (fun p => (qualName cur p.1, p.2)), none) := hmw
            have hInv' : ∀ k, keyMem (s.widget_definitions ++
                mc.widgets.map (fun p => (qualName cur p.1, p.2))) k = true →
                ∃ mw ∈ wpairs env, mw.1 ∈ cur :: vis ∧ k = qualName mw.1 mw.2 := by
              intro k hk
              rw [keyMem_append, Bool.or_eq_true] at hk
              rcases hk with hk | hk
              · obtain ⟨mw, hmw2, hmvis, hqk⟩ := hInv _ hk
                exact ⟨mw, hmw2, List.mem_cons_of_mem _ hmvis, hqk⟩
              · rw [keyMem_eq_true_iff] at hk
                obtain ⟨p, hp, hpk⟩ := hk
                obtain ⟨wd, hwd, hwdp⟩ := List.mem_map.mp hp
                refine ⟨(cur, wd.1), hpairs wd.1 (List.mem_map.mpr ⟨wd, hwd, rfl⟩),
                  List.mem_cons_self _ _, ?_⟩
                rw [← hpk, ← hwdp]
            rcases hmd : mergeStrict (fun n => n) mc.data s.data_definitions
                with ⟨ds, derr⟩
            cases derr with
            | some k =>
              simp [langLoop, if_neg hv, hlk, hmw', hmd, LoopRes.isDupWidget]
            | none =>
              cases happ : appOf mc with
              | some a =>
                by_cases hs : s.app_config.isSome = true
                · simp [langLoop, if_neg hv, hlk, hmw', hmd, happ, hs,
                    LoopRes.isDupWidget]
                · simp only [Bool.not_eq_true] at hs
                  simp only [langLoop, if_neg hv, hlk, hmw', hmd, happ, hs,
                    Bool.false_eq_true, if_false]
                  exact ih _ _ _ hInv'
              | none =>
                simp only [langLoop, if_neg hv, hlk, hmw', hmd, happ]
                exact ih _ _ _ hInv'

/-- C7 (amended): qualified namespacing makes the duplicate-widget branch
unreachable PROVIDED no two distinct (module, widget-key) pairs in the
environment produce the same qualified name and each module's widget keys
are distinct: under those hypotheses a fresh strict load never returns the
duplicate-widget error.  Because widget keys may contain dots, the proviso
is not automatic (see the counterexample). -/
theorem c7_qualified_namespacing_dup_unreachable :
    ∀ (env : Env) (n : String),
      (∀ a ∈ wpairs env, ∀ b ∈ wpairs env,
        qualName a.1 a.2 = qualName b.1 b.2 → a = b) →
      (∀ p ∈ env, (widgetKeysOf p.2).Nodup) →
      (langLoad env n initLang).isDupWidget = false := by
  intro env n Hq Hw
  apply langLoop_no_dupwidget env Hq Hw
  intro k hk
  simp [initLang, keyMem] at hk

/-- C7 counterexample: the duplicate-widget error IS reachable.  Widget
keys may contain dots, so module `a` with widget `b.c` and module `a.b`
with widget `c` both qualify to `a.b.c`, and on `envC7` the strict load
returns exactly the duplicate-widget error, from distinct module names. -/
theorem c7_counterexample :
    langLoad envC7 "m" initLang = LoopRes.err (LangErr.dupWidget "a.b.c")
      ⟨[("a.b.c", Y.s "1")], [], some (Y.s "z")⟩ ["a.b", "a", "builtin", "m"] ∧
    qualName "a" "b.c" = qualName "a.b" "c" ∧ ("a" : String) ≠ "a.b" :=
  ⟨rfl, rfl, by decide⟩

/-- C7 witness: on a fixture whose qualified names are collision-free the
strict load indeed avoids the duplicate-widget branch. -/
theorem c7_witness : (langLoad envC7W "m" initLang).isDupWidget = false :=
  c7_qualified_namespacing_dup_unreachable envC7W "m" (by decide) (by decide)

/-- C8: with no rewriting rule supplied, `process_widget_references` is the
identity on every mapping/sequence/scalar tree — so the output is trivially
structurally isomorphic to the input: the same keys in the same insertion
order, the same sequence elements in order, every scalar unchanged. -/
theorem c8_reference_rewriter_identity :
    (∀ y : Y, pwr y = y) ∧ (∀ xs : List Y, pwrList xs = xs) ∧
    (∀ kvs : List (String × Y), pwrMap kvs = kvs) := by
  refine ⟨pwr_id, ?_, ?_⟩
  · intro xs
    exact pwrList_id_of xs (fun y _ => pwr_id y)
  · intro kvs
    exact pwrMap_id_of kvs (fun p _ => pwr_id p.2)

/-! ## Section-presence invariants of the aggregator state -/

theorem mergeAgg_widgets_ne_nil_of_state (m : String) (mc : ModuleContent)
    (s : AggState) (h : s.widgets ≠ []) : (mergeAgg m mc s).widgets ≠ [] := by
  unfold mergeAgg
  exact foldl_dictInsert_ne_nil _ _ mc.widgets s.widgets h

theorem mergeAgg_widgets_ne_nil_of_mc (m : String) (mc : ModuleContent)
    (s : AggState) (h : mc.widgets ≠ []) : (mergeAgg m mc s).widgets ≠ [] := by
  unfold mergeAgg
  exact foldl_dictInsert_ne_nil_of_arg _ _ mc.widgets s.widgets h

theorem mergeAgg_data_ne_nil_of_state (m : String) (mc : ModuleContent)
    (s : AggState) (h : s.dataDefs ≠ []) : (mergeAgg m mc s).dataDefs ≠ [] := by
  unfold mergeAgg
  exact foldl_dictInsert_ne_nil _ _ mc.data s.dataDefs h

theorem mergeAgg_data_ne_nil_of_mc (m : String) (mc : ModuleContent)
    (s : AggState) (h : mc.data ≠ []) : (mergeAgg m mc s).dataDefs ≠ [] := by
  unfold mergeAgg
  exact foldl_dictInsert_ne_nil_of_arg _ _ mc.data s.dataDefs h

theorem mergeAgg_widgets_src (m : String) (mc : ModuleContent) (s : AggState)
    (h : (mergeAgg m mc s).widgets ≠ []) : s.widgets ≠ [] ∨ mc.widgets ≠ [] := by
  by_cases hmc : mc.widgets = []
  · left
    unfold mergeAgg at h
    rw [hmc] at h
    simpa using h
  · right
    exact hmc

theorem mergeAgg_data_src (m : String) (mc : ModuleContent) (s : AggState)
    (h : (mergeAgg m mc s).dataDefs ≠ []) : s.dataDefs ≠ [] ∨ mc.data ≠ [] := by
  by_cases hmc : mc.data = []
  · left
    unfold mergeAgg at h
    rw [hmc] at h
    simpa using h
  · right
    exact hmc

theorem mergeAgg_app (m : String) (mc : ModuleContent) (s : AggState) :
    (mc.app = none ∧ (mergeAgg m mc s).app_config = s.app_config) ∨
    (mc.app ≠ none ∧ (mergeAgg m mc s).app_config = mc.app) := by
  cases hmc : mc.app with
  | none => left; exact ⟨rfl, by simp [mergeAgg, hmc]⟩
  | some v => right; exact ⟨by simp, by simp [mergeAgg, hmc]⟩

/-- Where the aggregator's merged sections come from: a section flag
(widgets nonempty, data nonempty, app set) only rises when some visited
module contributed it, and a contribution from any module visited during
the call forces the flag. -/
theorem aggSectionFacts (env : Env) : ∀ fuel,
    (∀ m s s', processAgg env fuel m s = some s' →
      (s.widgets ≠ [] → s'.widgets ≠ []) ∧
      (s.dataDefs ≠ [] → s'.dataDefs ≠ []) ∧
      (s'.widgets ≠ [] → s.widgets ≠ [] ∨
        ∃ v ∈ s'.visited, (aggContentAt env v).widgets ≠ []) ∧
      (s'.dataDefs ≠ [] → s.dataDefs ≠ [] ∨
        ∃ v ∈ s'.visited, (aggContentAt env v).data ≠ []) ∧
      (s'.app_config = s.app_config ∨
        ∃ v ∈ s'.visited, (aggContentAt env v).app ≠ none) ∧
      (∀ v ∈ s'.visited, v ∉ s.visited →
        ((aggContentAt env v).widgets ≠ [] → s'.widgets ≠ []) ∧
        ((aggContentAt env v).data ≠ [] → s'.dataDefs ≠ []))) ∧
    (∀ ns s s', processList env fuel ns s = some s' →
      (s.widgets ≠ [] → s'.widgets ≠ []) ∧
      (s.dataDefs ≠ [] → s'.dataDefs ≠ []) ∧
      (s'.widgets ≠ [] → s.widgets ≠ [] ∨
        ∃ v ∈ s'.visited, (aggContentAt env v).widgets ≠ []) ∧
      (s'.dataDefs ≠ [] → s.dataDefs ≠ [] ∨
        ∃ v ∈ s'.visited, (aggContentAt env v).data ≠ []) ∧
      (s'.app_config = s.app_config ∨
        ∃ v ∈ s'.visited, (aggContentAt env v).app ≠ none) ∧
      (∀ v ∈ s'.visited, v ∉ s.visited →
        ((aggContentAt env v).widgets ≠ [] → s'.widgets ≠ []) ∧
        ((aggContentAt env v).data ≠ [] → s'.dataDefs ≠ []))) := by
  intro fuel
  induction fuel with
  | zero =>
    constructor
    · intro m s s' h
      simp [processAgg] at h
    · intro ns s s' h
      cases ns with
      | nil =>
        simp only [processList, Option.some.injEq] at h
        subst h
        exact ⟨id, id, fun hw => Or.inl hw, fun hd => Or.inl hd, Or.inl rfl,
          fun v hv hnv => absurd hv hnv⟩
      | cons n rest => simp [processList, processAgg] at h
  | succ fuel ih =>
    obtain ⟨_, ihL⟩ := ih
    have hP : ∀ m s s', processAgg env (fuel + 1) m s = some s' →
        (s.widgets ≠ [] → s'.widgets ≠ []) ∧
        (s.dataDefs ≠ [] → s'.dataDefs ≠ []) ∧
        (s'.widgets ≠ [] → s.widgets ≠ [] ∨
          ∃ v ∈ s'.visited, (aggContentAt env v).widgets ≠ []) ∧
        (s'.dataDefs ≠ [] → s.dataDefs ≠ [] ∨
          ∃ v ∈ s'.visited, (aggContentAt env v).data ≠ []) ∧
        (s'.app_config = s.app_config ∨
          ∃ v ∈ s'.visited, (aggContentAt env v).app ≠ none) ∧
        (∀ v ∈ s'.visited, v ∉ s.visited →
          ((aggContentAt env v).widgets ≠ [] → s'.widgets ≠ []) ∧
          ((aggContentAt env v).data ≠ [] → s'.dataDefs ≠ [])) := by
      intro m s s' h
      by_cases hv : m ∈ s.visited
      · simp only [processAgg, if_pos hv, Option.some.injEq] at h
        subst h
        exact ⟨id, id, fun hw => Or.inl hw, fun hd => Or.inl hd, Or.inl rfl,
          fun v hvv hnv => absurd hvv hnv⟩
      · simp only [processAgg, if_neg hv] at h
        cases hlk : List.lookup m env with
        | none =>
          rw [hlk] at h
          simp only [Option.some.injEq] at h
          subst h
          refine ⟨id, id, fun hw => Or.inl hw, fun hd => Or.inl hd, Or.inl rfl, ?_⟩
          intro v hvv hnv
          have hvm : v = m := by
            rcases List.mem_cons.mp hvv with rfl | hx
            · rfl
            · exact absurd hx hnv
          subst hvm
          simp [aggContentAt, hlk, emptyContent]
        | some f =>
          rw [hlk] at h
          simp only at h
          cases hpl : processList env fuel
              (aggImports (aggContentOf f).imp)
              { s with visited := m :: s.visited } with
          | none => rw [hpl] at h; cases h
          | some s2 =>
            rw [hpl] at h
            simp only [Option.some.injEq] at h
            obtain ⟨l1, l2, l3, l4, l5, l6⟩ := ihL _ _ _ hpl
            obtain ⟨vmono, _, _⟩ := (aggVisitedFacts env fuel).2 _ _ _ hpl
            have hmvis2 : m ∈ s2.visited := vmono m (List.mem_cons_self _ _)
            have hcm : aggContentAt env m = aggContentOf f := by
              simp [aggContentAt, hlk]
            subst h
            refine ⟨?_, ?_, ?_, ?_, ?_, ?_⟩
            · intro hw
              exact mergeAgg_widgets_ne_nil_of_state _ _ _ (l1 hw)
            · intro hd
              exact mergeAgg_data_ne_nil_of_state _ _ _ (l2 hd)
            · intro hw
              rcases mergeAgg_widgets_src _ _ _ hw with hw2 | hmc
              · rcases l3 hw2 with hs1 | ⟨v, hvv, hvc⟩
                · exact Or.inl hs1
                · exact Or.inr ⟨v, hvv, hvc⟩
              · exact Or.inr ⟨m, hmvis2, by rw [hcm]; exact hmc⟩
            · intro hd
              rcases mergeAgg_data_src _ _ _ hd with hd2 | hmc
              · rcases l4 hd2 with hs1 | ⟨v, hvv, hvc⟩
                · exact Or.inl hs1
                · exact Or.inr ⟨v, hvv, hvc⟩
              · exact Or.inr ⟨m, hmvis2, by rw [hcm]; exact hmc⟩
            · rcases mergeAgg_app m (aggContentOf f) s2 with ⟨_, happ⟩ | ⟨hne, happ⟩
              · rw [happ]
                rcases l5 with h5 | ⟨v, hvv, hvc⟩
                · exact Or.inl h5
                · exact Or.inr ⟨v, hvv, hvc⟩
              · exact Or.inr ⟨m, hmvis2, by rw [hcm]; exact hne⟩
            · intro v hvv hnv
              by_cases hvm : v = m
              · subst hvm
                rw [hcm]
                exact ⟨fun hmc => mergeAgg_widgets_ne_nil_of_mc _ _ _ hmc,
                       fun hmc => mergeAgg_data_ne_nil_of_mc _ _ _ hmc⟩
              · have hvnew : v ∉ ({ s with visited := m :: s.visited } : AggState).visited := by
                  simp only
                  intro hx
                  rcases List.mem_cons.mp hx with rfl | hx2
                  · exact hvm rfl
                  · exact hnv hx2
                obtain ⟨h6w, h6d⟩ := l6 v hvv hvnew
                exact ⟨fun hc => mergeAgg_widgets_ne_nil_of_state _ _ _ (h6w hc),
                       fun hc => mergeAgg_data_ne_nil_of_state _ _ _ (h6d hc)⟩
    have hL : ∀ ns s s', processList env (fuel + 1) ns s = some s' →
        (s.widgets ≠ [] → s'.widgets ≠ []) ∧
        (s.dataDefs ≠ [] → s'.dataDefs ≠ []) ∧
        (s'.widgets ≠ [] → s.widgets ≠ [] ∨
          ∃ v ∈ s'.visited, (aggContentAt env v).widgets ≠ []) ∧
        (s'.dataDefs ≠ [] → s.dataDefs ≠ [] ∨
          ∃ v ∈ s'.visited, (aggContentAt env v).data ≠ []) ∧
        (s'.app_config = s.app_config ∨
          ∃ v ∈ s'.visited, (aggContentAt env v).app ≠ none) ∧
        (∀ v ∈ s'.visited, v ∉ s.visited →
          ((aggContentAt env v).widgets ≠ [] → s'.widgets ≠ []) ∧
          ((aggContentAt env v).data ≠ [] → s'.dataDefs ≠ [])) := by
      intro ns
      induction ns with
      | nil =>
        intro s s' h
        simp only [processList, Option.some.injEq] at h
        subst h
        exact ⟨id, id, fun hw => Or.inl hw, fun hd => Or.inl hd, Or.inl rfl,
          fun v hvv hnv => absurd hvv hnv⟩
      | cons n rest ihns =>
        intro s s' h
        simp only [processList] at h
        cases hpa : processAgg env (fuel + 1) n s with
        | none => rw [hpa] at h; cases h
        | some s1 =>
          rw [hpa] at h
          simp only at h
          obtain ⟨p1, p2, p3, p4, p5, p6⟩ := hP n s s1 hpa
          obtain ⟨r1, r2, r3, r4, r5, r6⟩ := ihns s1 s' h
          obtain ⟨pv, _, _⟩ := (aggVisitedFacts env (fuel + 1)).1 _ _ _ hpa
          obtain ⟨rv, _, _⟩ := (aggVisitedFacts env (fuel + 1)).2 _ _ _ h
          refine ⟨fun hw => r1 (p1 hw), fun hd => r2 (p2 hd), ?_, ?_, ?_, ?_⟩
          · intro hw
            rcases r3 hw with h1 | ⟨v, hvv, hvc⟩
            · rcases p3 h1 with h0 | ⟨v, hvv, hvc⟩
              · exact Or.inl h0
              · exact Or.inr ⟨v, rv v hvv, hvc⟩
            · exact Or.inr ⟨v, hvv, hvc⟩
          · intro hd
            rcases r4 hd with h1 | ⟨v, hvv, hvc⟩
            · rcases p4 h1 with h0 | ⟨v, hvv, hvc⟩
              · exact Or.inl h0
              · exact Or.inr ⟨v, rv v hvv, hvc⟩
            · exact Or.inr ⟨v, hvv, hvc⟩
          · rcases r5 with h1 | ⟨v, hvv, hvc⟩
            · rw [h1]
              rcases p5 with h0 | ⟨v, hvv, hvc⟩
              · exact Or.inl h0
              · exact Or.inr ⟨v, rv v hvv, hvc⟩
            · exact Or.inr ⟨v, hvv, hvc⟩
          · intro v hvv hnv
            by_cases hv1 : v ∈ s1.visited
            · obtain ⟨h6w, h6d⟩ := p6 v hv1 hnv
              exact ⟨fun hc => r1 (h6w hc), fun hc => r2 (h6d hc)⟩
            · exact r6 v hvv hv1
    exact ⟨hP, hL⟩

theorem buildFinal_keys (s : AggState) :
    keyMem (buildFinal s) "app" = truthyOpt s.app_config ∧
    keyMem (buildFinal s) "widgets" = !s.widgets.isEmpty ∧
    keyMem (buildFinal s) "data" = !s.dataDefs.isEmpty := by
  unfold buildFinal
  cases htr : truthyOpt s.app_config <;>
    cases hw : s.widgets.isEmpty <;>
      cases hd : s.dataDefs.isEmpty <;>
        simp [keyMem]

/-- C9 (amended): in the aggregation output, the `widgets` and `data`
sections are present exactly when some visited module contributed to them;
the `app` section is present exactly when the final captured app config is
TRUTHY (so a contributed but falsy app block — null, `{}`, `[]`, `0`, `""`,
`false` — yields no `app` section), and any captured app config does come
from a visited module whose content has an `app` key. -/
theorem c9_output_sections_iff_contributions :
    ∀ (env : Env) (main : String) (st : AggState) (fin : List (String × Y)),
      aggregateRun env main = some (st, fin) →
      (keyMem fin "widgets" = true ↔
        ∃ v ∈ st.visited, (aggContentAt env v).widgets ≠ []) ∧
      (keyMem fin "data" = true ↔
        ∃ v ∈ st.visited, (aggContentAt env v).data ≠ []) ∧
      (keyMem fin "app" = true ↔ truthyOpt st.app_config = true) ∧
      (st.app_config ≠ none →
        ∃ v ∈ st.visited, (aggContentAt env v).app ≠ none) := by
  intro env main st fin h
  unfold aggregateRun at h
  have hpa : processAgg env (aggFuel env) main initAgg = some st := by
    cases hpa : processAgg env (aggFuel env) main initAgg with
    | none => rw [hpa] at h; cases h
    | some st2 =>
      rw [hpa] at h
      simp only [Option.some.injEq, Prod.mk.injEq] at h
      rw [← h.1]
  have hfin : fin = buildFinal st := by
    cases hpa2 : processAgg env (aggFuel env) main initAgg with
    | none => rw [hpa2] at h; cases h
    | some st2 =>
      rw [hpa2] at h
      simp only [Option.some.injEq, Prod.mk.injEq] at h
      rw [← h.2, h.1]
  obtain ⟨k1, k2, k3⟩ := buildFinal_keys st
  obtain ⟨_, _, s3, s4, s5, s6⟩ := (aggSectionFacts env (aggFuel env)).1 _ _ _ hpa
  subst hfin
  refine ⟨?_, ?_, ?_, ?_⟩
  · rw [k2]
    constructor
    · intro hne
      have hw : st.widgets ≠ [] := by
        intro hc
        rw [hc] at hne
        simp at hne
      rcases s3 hw with h0 | hex
      · exact absurd h0 (by simp [initAgg])
      · exact hex
    · intro ⟨v, hvv, hvc⟩
      have := (s6 v hvv (by simp [initAgg])).1 hvc
      simpa using this
  · rw [k3]
    constructor
    · intro hne
      have hd : st.dataDefs ≠ [] := by
        intro hc
        rw [hc] at hne
        simp at hne
      rcases s4 hd with h0 | hex
      · exact absurd h0 (by simp [initAgg])
      · exact hex
    · intro ⟨v, hvv, hvc⟩
      have := (s6 v hvv (by simp [initAgg])).2 hvc
      simpa using this
  · rw [k1]
  · intro hne
    rcases s5 with h0 | hex
    · exact absurd h0 (by simpa [initAgg] using hne)
    · exact hex

/-- C9 counterexample: a section can be absent despite a contribution.  On
`envC9` module `m` contributes `app: {}`; the traversal captures it
(`app_config = some (Y.map [])`), yet the emitted document has no `app`
key, because `if self.app_config:` is false for a falsy value. -/
theorem c9_counterexample :
    aggregateRun envC9 "m" = some
      (⟨[("w", ("m", Y.s "1"))], [], some (Y.map []), ["m"]⟩,
       [("widgets", Y.map [("w", Y.s "1")])]) ∧
    (aggContentAt envC9 "m").app ≠ none ∧
    keyMem [(("widgets" : String), Y.map [("w", Y.s "1")])] "app" = false := by
  refine ⟨?_, by simp [aggContentAt, envC9, List.lookup, aggContentOf], by decide⟩
  simp [aggregateRun, aggFuel, aggAllNames, aggFileImports, aggContentOf,
    emptyContent, aggImports, processAgg, processList, initAgg, mergeAgg,
    buildFinal, truthyOpt, truthy, List.lookup, dictInsert, envC9, pwr]

/-- C9 witness: the biconditionals at the concrete `envC9` run. -/
theorem c9_witness :
    (keyMem [(("widgets" : String), Y.map [("w", Y.s "1")])] "widgets" = true ↔
      ∃ v ∈ (["m"] : List String), (aggContentAt envC9 v).widgets ≠ []) ∧
    (keyMem [(("widgets" : String), Y.map [("w", Y.s "1")])] "app" = true ↔
      truthyOpt (some (Y.map [])) = true) := by
  have h := c9_output_sections_iff_contributions envC9 "m"
    ⟨[("w", ("m", Y.s "1"))], [], some (Y.map []), ["m"]⟩
    [("widgets", Y.map [("w", Y.s "1")])]
    (by simp [aggregateRun, aggFuel, aggAllNames, aggFileImports, aggContentOf,
      emptyContent, aggImports, processAgg, processList, initAgg, mergeAgg,
      buildFinal, truthyOpt, truthy, List.lookup, dictInsert, envC9, pwr])
  exact ⟨h.1, h.2.2.1⟩
